import Mathlib

/-!
Verification development for the site-generator developer-workflow utilities.

The repository consists of two report aggregators
(src/analyze_eslint.py, a line-oriented text-report aggregator, and
src/scripts/analyze_eslint.py, a JSON-report aggregator) and three
regex-based source rewriters (src/scripts/fix_any_types.py,
src/scripts/fix_eslint_issues.py, src/scripts/fix_all_unused_vars.py).

Each Python function is shallowly embedded as an executable Lean
definition over lists of characters / association lists; the embeddings
follow the source line by line.  Modelling conventions, noted where they
apply:
  * File contents and lines are `List Char` (obtained from string
    literals via `String.toList`).
  * Python dictionaries (`defaultdict`) are association lists, which
    preserve insertion order exactly as Python dicts do.
  * `re` character classes `\s`, `\w`, `\d` are modelled by their ASCII
    subsets, which is exact for ASCII file contents.
  * Printing is modelled by returning the printed information as data;
    `sys.exit(n)` is modelled with `Except Nat`.
-/

namespace SiteGen

/-- Update-or-append in an association list: if the key is present its
value is rewritten through `g`, otherwise `(k, g dflt)` is appended at
the end.  This is the semantics of `d[k] = ...` on a Python
(default)dict. -/
def setAssoc (k : String) (g : α → α) (dflt : α) : List (String × α) → List (String × α)
  | [] => [(k, g dflt)]
  | (k2, v) :: rest => if k2 = k then (k2, g v) :: rest else (k2, v) :: setAssoc k g dflt rest

/-- Lookup with default (`defaultdict` read access). -/
def getAssoc (k : String) (m : List (String × α)) (dflt : α) : α :=
  match m.find? (fun kv => kv.1 = k) with
  | some kv => kv.2
  | none => dflt

/-- `defaultdict(int)` increment: `d[k] += n`. -/
def bump (k : String) (n : Nat) : List (String × Nat) → List (String × Nat)
  | [] => [(k, n)]
  | (k2, v) :: rest => if k2 = k then (k2, v + n) :: rest else (k2, v) :: bump k n rest

/-- Keys of an association list. -/
def keysOf {α : Type} (m : List (String × α)) : List String := m.map Prod.fst

namespace PathOps

/-- Split a path at its last slash: `some (before, after)` where
`before` is everything before the last slash and `after` everything
after it; `none` when the path has no slash. -/
def splitAtLastSlash : List Char → Option (List Char × List Char)
  | [] => none
  | c :: cs =>
    match splitAtLastSlash cs with
    | some (h, t) => some (c :: h, t)
    | none => if c = '/' then some ([], cs) else none

def allSlashes (l : List Char) : Bool := l.all (fun c => c = '/')

def rstripSlashes (l : List Char) : List Char := (l.reverse.dropWhile (fun c => c = '/')).reverse

/-- `os.path.dirname` (POSIX): the part before the last slash, with
trailing slashes stripped unless the head is all slashes; `""` when the
path has no slash. -/
def dirname (p : List Char) : List Char :=
  match splitAtLastSlash p with
  | none => []
  | some (before, _) =>
    let head := before ++ ['/']
    if allSlashes head then head else rstripSlashes head

/-- `os.path.basename` (POSIX): the part after the last slash. -/
def basename (p : List Char) : List Char :=
  match splitAtLastSlash p with
  | none => p
  | some (_, after) => after

end PathOps

/-!
## JSON report aggregator — src/scripts/analyze_eslint.py

`parse_eslint_report` reads `eslint_report.json` (a list of per-file
reports, each with a `filePath` and a list of messages) and builds
`issues_by_dir : directory → filename → rule → count`, the global
`rule_counts` and `total_issues`.  `display_analysis` prints the
hierarchical summary.  `os.path.relpath` is modelled as the identity on
the reported path (the report paths are already relative to the working
directory).
-/

namespace JsonAgg

structure Message where
  /-- `message['ruleId']`; `none` models an absent key, defaulted to
  `"unknown"` by `message.get('ruleId', 'unknown')`. -/
  ruleId : Option String
deriving DecidableEq

structure FileReport where
  filePath : String
  messages : List Message
deriving DecidableEq

abbrev Report := List FileReport

abbrev RuleCounts := List (String × Nat)

abbrev FileMap := List (String × RuleCounts)

abbrev DirMap := List (String × FileMap)

def ruleOf (m : Message) : String := m.ruleId.getD "unknown"

/-- The per-file `file_issues` dict: `file_issues[rule_id] += 1` per
message. -/
def fileIssues (msgs : List Message) : RuleCounts :=
  msgs.foldl (fun acc m => bump (ruleOf m) 1 acc) []

/-- `issues_by_dir[directory][filename][rule_id] = count`. -/
def setRule (d f r : String) (c : Nat) (m : DirMap) : DirMap :=
  setAssoc d (fun fm => setAssoc f (fun rm => setAssoc r (fun _ => c) 0 rm) [] fm) [] m

/-- Store a whole `file_issues` dict under `(directory, filename)`:
`for rule_id, count in file_issues.items(): issues_by_dir[d][f][r] = count`. -/
def storeFileIssues (d f : String) (fi : RuleCounts) (m : DirMap) : DirMap :=
  fi.foldl (fun acc rc => setRule d f rc.1 rc.2 acc) m

structure ParseAcc where
  issuesByDir : DirMap
  ruleCounts : RuleCounts
  total : Nat
deriving DecidableEq

def relPath (p : String) : List Char := p.toList

def dirOf (fr : FileReport) : String := String.mk (PathOps.dirname (relPath fr.filePath))

def fileOf (fr : FileReport) : String := String.mk (PathOps.basename (relPath fr.filePath))

/-- One iteration of the `for file_report in report` loop. -/
def processFile (acc : ParseAcc) (fr : FileReport) : ParseAcc :=
  if fr.messages = [] then acc
  else
    { issuesByDir := storeFileIssues (dirOf fr) (fileOf fr) (fileIssues fr.messages) acc.issuesByDir
      ruleCounts := fr.messages.foldl (fun g m => bump (ruleOf m) 1 g) acc.ruleCounts
      total := acc.total + fr.messages.length }

def parse_eslint_report (r : Report) : ParseAcc :=
  r.foldl processFile ⟨[], [], 0⟩

/-- `sorted(l, key=lambda x: x[1], reverse=True)`: stable descending by
the numeric component; `List.mergeSort` with this comparator is stable
exactly as Python sort is. -/
def sortDesc (l : List (α × Nat)) : List (α × Nat) :=
  l.mergeSort (fun a b => b.2 ≤ a.2)

def sumRC (rc : RuleCounts) : Nat := (rc.map (fun kv => kv.2)).sum

def fileTotal (rc : RuleCounts) : Nat := sumRC rc

def dirTotal (fm : FileMap) : Nat := (fm.map (fun fr => fileTotal fr.2)).sum

/-- One file line of the display: filename, its total, the top-5 rules
shown, and the `...and K more rule types` summary when present. -/
structure FileBlock where
  filename : String
  total : Nat
  shownRules : List (String × Nat)
  moreRuleTypes : Option Nat
deriving DecidableEq

structure DirBlock where
  dir : String
  total : Nat
  files : List FileBlock
deriving DecidableEq

/-- The displayed analysis, as data: the grand total printed in the
header, the directory blocks in display order, the top-10 global rules,
and — for the division-safety claims — the list of every percentage
division performed, as (numerator, denominator) pairs in evaluation
order. -/
structure DisplayOut where
  totalIssues : Nat
  dirs : List DirBlock
  topRules : List (String × Nat)
  divisions : List (Nat × Nat)
deriving DecidableEq

def fileBlockOf (files : FileMap) (fp : String × Nat) : FileBlock :=
  let rules := getAssoc fp.1 files []
  let sortedRules := sortDesc rules
  { filename := fp.1
    total := fp.2
    shownRules := sortedRules.take 5
    moreRuleTypes := if sortedRules.length > 5 then some (sortedRules.length - 5) else none }

def dirBlockOf (m : DirMap) (dp : String × Nat) : DirBlock :=
  let files := getAssoc dp.1 m []
  let fileTotals := files.map (fun fr => (fr.1, fileTotal fr.2))
  let sortedFiles := sortDesc fileTotals
  { dir := dp.1
    total := dp.2
    files := sortedFiles.map (fileBlockOf files) }

/-- Divisions performed while displaying one directory block:
`dir_percent = dir_total / total_issues` then, per file in sorted order,
`file_percent = file_total / dir_total`. -/
def dirDivisions (total : Nat) (db : DirBlock) : List (Nat × Nat) :=
  (db.total, total) :: db.files.map (fun fb => (fb.total, db.total))

def display_analysis (acc : ParseAcc) : DisplayOut :=
  let dirTotals := acc.issuesByDir.map (fun dp => (dp.1, dirTotal dp.2))
  let sortedDirs := sortDesc dirTotals
  let dirs := sortedDirs.map (dirBlockOf acc.issuesByDir)
  let topRules := (sortDesc acc.ruleCounts).take 10
  { totalIssues := acc.total
    dirs := dirs
    topRules := topRules
    divisions := dirs.flatMap (dirDivisions acc.total) ++ topRules.map (fun rc => (rc.2, acc.total)) }

/-- `sys.exit(1)` outcomes of `parse_eslint_report` at the I/O boundary:
`FileNotFoundError` and `json.JSONDecodeError` both exit with status 1;
a readable valid report is parsed. -/
inductive JsonInput where
  | missing
  | badJson
  | ok (r : Report)

def parse_eslint_report_run : JsonInput → Except Nat ParseAcc
  | .missing => .error 1
  | .badJson => .error 1
  | .ok r => .ok (parse_eslint_report r)

/-- Sum of all per-directory totals: the grand total reconstructed from
the aggregation map. -/
def grandTotal (m : DirMap) : Nat := (m.map (fun dp => dirTotal dp.2)).sum

/-- `(directory, filename)` key pairs present in the aggregation. -/
def pairsOf (m : DirMap) : List (String × String) :=
  m.flatMap (fun dp => dp.2.map (fun fp => (dp.1, fp.1)))

/-- The `(directory, filename)` keys derived from the file reports that
carry messages. -/
def wfKeys (r : Report) : List (String × String) :=
  (r.filter (fun fr => ¬ fr.messages.isEmpty)).map (fun fr => (dirOf fr, fileOf fr))

/-- A well-formed report names each `(directory, filename)` at most once
(two reports for the same file would overwrite each other's counts). -/
def WellFormed (r : Report) : Prop := (wfKeys r).Nodup

/-- The inner rule-map update of `storeFileIssues`, iterated. -/
def ruleFold (fi : RuleCounts) (rm : RuleCounts) : RuleCounts :=
  fi.foldl (fun rm2 rc => setAssoc rc.1 (fun _ => rc.2) 0 rm2) rm

/-- `main()` after a successful parse: `display_analysis`, the closing
prints, and the recommended-next-step line, whose f-string evaluates
`list(issues_by_dir.keys())[0]` — the first directory key, an uncaught
`IndexError` (the process dies with a traceback and a non-zero status)
when the aggregation is empty. -/
def main_run (r : Report) : Except String (DisplayOut × String) :=
  let acc := parse_eslint_report r
  let out := display_analysis acc
  match acc.issuesByDir.map Prod.fst with
  | [] => .error "IndexError: list index out of range"
  | d :: _ => .ok (out, d)

end JsonAgg

/-!
## Text report aggregator — src/analyze_eslint.py

`parse_eslint_report` scans `eslint_report.txt` line by line; each line
is stripped and matched against

    ^(.+?):\s+line\s+\d+,\s+col\s+\d+,\s+(Error|Warning)\s+-

and a matching line increments
`folder_file_errors[os.path.dirname(path)][path]`.

The regex is embedded as a deterministic scanner:
  * the non-greedy `(.+?):` is the leftmost split at a `:` whose right
    side matches the rest of the pattern, with a non-empty left side
    (`findSplit` scans candidate colons left to right);
  * every `\s+` is followed by a non-whitespace literal and every `\d+`
    by `,`, so the greedy maximal munch of the backtracking regex engine
    is exact;
  * `(Error|Warning)` is deterministic (distinct first characters, and
    `Error` followed by more word characters fails both branches).
`\s` and `\d` are the ASCII classes (exact for ASCII report files; a
line read from a file contains no interior newline).
-/

namespace TextAgg

def isWS (c : Char) : Bool :=
  c = ' ' || c = '\t' || c = '\n' || c = '\r' || c = '\x0b' || c = '\x0c'

def isDigit (c : Char) : Bool := '0' ≤ c && c ≤ '9'

/-- Match a literal token, returning the rest of the input. -/
def expects : List Char → List Char → Option (List Char)
  | [], l => some l
  | _ :: _, [] => none
  | p :: ps, c :: cs => if c = p then expects ps cs else none

/-- `\s+` with maximal munch. -/
def ws1 : List Char → Option (List Char)
  | [] => none
  | c :: cs => if isWS c then some (cs.dropWhile isWS) else none

/-- `\d+` with maximal munch. -/
def digits1 : List Char → Option (List Char)
  | [] => none
  | c :: cs => if isDigit c then some (cs.dropWhile isDigit) else none

/-- `(Error|Warning)`. -/
def sevAlt (l : List Char) : Option (List Char) :=
  match expects "Error".toList l with
  | some r => some r
  | none => expects "Warning".toList l

/-- The part of the line pattern after the colon:
`\s+line\s+\d+,\s+col\s+\d+,\s+(Error|Warning)\s+-` as a prefix of `l`
(the message after `-` is unconstrained: `re.match` only anchors the
start). -/
def tailShape (l : List Char) : Bool :=
  (do
    let r1 ← ws1 l
    let r2 ← expects "line".toList r1
    let r3 ← ws1 r2
    let r4 ← digits1 r3
    let r5 ← expects [','] r4
    let r6 ← ws1 r5
    let r7 ← expects "col".toList r6
    let r8 ← ws1 r7
    let r9 ← digits1 r8
    let r10 ← expects [','] r9
    let r11 ← ws1 r10
    let r12 ← sevAlt r11
    let r13 ← ws1 r12
    let _ ← expects ['-'] r13
    pure ()).isSome

/-- Leftmost split `path ++ ':' :: rest` with `path` non-empty and
`tailShape rest`; `acc` holds the reversed path candidate read so far. -/
def findSplit (acc : List Char) : List Char → Option (List Char × List Char)
  | [] => none
  | c :: cs =>
    if c = ':' ∧ acc ≠ [] ∧ tailShape cs then some (acc.reverse, cs)
    else findSplit (c :: acc) cs

/-- `file_pattern.match(line)`: `some path` with the (non-greedy) first
capture group, `none` when the line does not match. -/
def matchLine (l : List Char) : Option (List Char) :=
  (findSplit [] l).map (fun pr => pr.1)

/-- `str.strip()` (ASCII whitespace). -/
def strip (l : List Char) : List Char :=
  ((l.dropWhile isWS).reverse.dropWhile isWS).reverse

/-- `folder_file_errors : folder → file → count` as nested association
lists. -/
abbrev TDirMap := List (String × List (String × Nat))

/-- `folder_file_errors[folder_path][file_path] += 1`. -/
def bumpNested (d f : String) (m : TDirMap) : TDirMap :=
  setAssoc d (fun fm => bump f 1 fm) [] m

/-- One line of the `for line in f` loop. -/
def processLine (m : TDirMap) (line : String) : TDirMap :=
  match matchLine (strip line.toList) with
  | some path =>
    bumpNested (String.mk (PathOps.dirname path)) (String.mk path) m
  | none => m

def parse_lines (lines : List String) : TDirMap :=
  lines.foldl processLine []

/-- Program-level input of src/analyze_eslint.py: the report file is
either absent or a list of lines. -/
inductive TextInput where
  | missing
  | content (lines : List String)

/-- The printed output, as events. -/
inductive TEvent where
  | analyzingHeader
  | errMissingReport (path : String)
  | noIssues
  | folderHeader (name : String) (count : Nat)
  | fileLine (name : String) (count : Nat)
  | complete
deriving DecidableEq

/-- `parse_eslint_report(REPORT_FILE)`: a missing file prints an error
and returns the empty dict. -/
def parse_eslint_report (inp : TextInput) : List TEvent × TDirMap :=
  match inp with
  | .missing => ([.errMissingReport "eslint_report.txt"], [])
  | .content lines => ([], parse_lines lines)

/-- `display_sorted_results`: an empty dict prints the no-issues
message; otherwise folders sorted by descending total, files within each
folder sorted by descending count. -/
def display_sorted_results (m : TDirMap) : List TEvent :=
  if m = [] then [.noIssues]
  else
    let folderErrors := m.map (fun dp => (dp.1, (dp.2.map (fun fv => fv.2)).sum))
    let sortedFolders := JsonAgg.sortDesc folderErrors
    sortedFolders.flatMap (fun dp =>
      .folderHeader dp.1 dp.2 ::
      (JsonAgg.sortDesc (getAssoc dp.1 m [])).map (fun fv =>
        .fileLine fv.1 fv.2))

/-- `main()` of src/analyze_eslint.py; the script never calls
`sys.exit`, so the process exit status is 0 in every case. -/
def mainRun (inp : TextInput) : List TEvent × TDirMap × Nat :=
  let pr := parse_eslint_report inp
  (.analyzingHeader :: pr.1 ++ display_sorted_results pr.2 ++ [.complete], pr.2, 0)

/-- The line grammar of the specification, as a predicate:
`<path>: line <n>, col <n>, (Error|Warning) - <message>` with arbitrary
(nonempty) whitespace runs where the regex has `\s+`. -/
def ShapeOf (l : List Char) : Prop :=
  ∃ path w1 w2 d1 w3 w4 d2 w5 sev w6 msg,
    l = path ++ [':'] ++ w1 ++ "line".toList ++ w2 ++ d1 ++ [','] ++ w3 ++
      "col".toList ++ w4 ++ d2 ++ [','] ++ w5 ++ sev ++ w6 ++ ['-'] ++ msg ∧
    path ≠ [] ∧
    (w1 ≠ [] ∧ w1.all isWS = true) ∧ (w2 ≠ [] ∧ w2.all isWS = true) ∧
    (w3 ≠ [] ∧ w3.all isWS = true) ∧ (w4 ≠ [] ∧ w4.all isWS = true) ∧
    (w5 ≠ [] ∧ w5.all isWS = true) ∧ (w6 ≠ [] ∧ w6.all isWS = true) ∧
    (d1 ≠ [] ∧ d1.all isDigit = true) ∧ (d2 ≠ [] ∧ d2.all isDigit = true) ∧
    (sev = "Error".toList ∨ sev = "Warning".toList)

end TextAgg

/-!
## Location-pattern unused-variable rewriter —
src/scripts/fix_eslint_issues.py, `fix_unused_vars`

For each flagged `(var_name, line, column)` (extracted from the ESLint
messages), the function checks that the variable is not already
underscore-prefixed, that the line number is in range, that the exact
variable name occurs at the 0-based column `prefix_pos = col - 1`, and
that the occurrence is standalone; if so it inserts one `_` at that
column.  Note the Python condition

    if prefix_pos > 0 and line[prefix_pos-1].isalnum() or line[prefix_pos-1] == '_':

parses as `(prefix_pos > 0 and isalnum(...)) or line[prefix_pos-1] == '_'`,
and when `prefix_pos = 0` the index `prefix_pos - 1 = -1` denotes the
LAST character of the line (Python negative indexing); `charBefore`
reproduces exactly that.  `str.isalnum` is modelled on ASCII.
-/

namespace LocFix

def isAlnum (c : Char) : Bool := c.isAlpha || c.isDigit

/-- `line[p-1]` for `p : Nat`: ordinary indexing when `p > 0`, and the
last character (Python index `-1`) when `p = 0`.  Callers guarantee the
line is non-empty and `p - 1 < line.length`, so the defaults are
unreachable. -/
def charBefore (line : List Char) (p : Nat) : Char :=
  if p = 0 then line.getLastD ' ' else line.getD (p - 1) ' '

structure UnusedVar where
  name : String
  line : Nat
  col : Nat
deriving DecidableEq

/-- One iteration of the `for var_name, line_num, col_num in unused_vars`
loop: returns the (possibly updated) lines and whether a fix was
applied.  `v.col = 0` corresponds to Python `prefix_pos = -1 < 0`
(skipped). -/
def processVar (lines : List (List Char)) (v : UnusedVar) : List (List Char) × Bool :=
  let name := v.name.toList
  if name.head? = some '_' then (lines, false)
  else if v.line = 0 || lines.length < v.line then (lines, false)
  else if v.col = 0 then (lines, false)
  else
    let line := lines.getD (v.line - 1) []
    let p := v.col - 1
    if p < line.length then
      if (line.drop p).take name.length = name then
        let cb := charBefore line p
        let leftBlocked := (decide (0 < p) && isAlnum cb) || cb = '_'
        let rightBlocked := decide (p + name.length < line.length) &&
          (isAlnum (line.getD (p + name.length) ' ') || line.getD (p + name.length) ' ' = '_')
        if leftBlocked || rightBlocked then (lines, false)
        else (lines.set (v.line - 1) (line.take p ++ '_' :: line.drop p), true)
      else (lines, false)
    else (lines, false)

/-- The fix loop over all flagged identifiers of the file, counting the
applied fixes. -/
def fix_unused_vars (lines : List (List Char)) (vs : List UnusedVar) : List (List Char) × Nat :=
  vs.foldl (fun acc v =>
    let r := processVar acc.1 v
    (r.1, acc.2 + (if r.2 then 1 else 0))) (lines, 0)

/-- The standalone test as the specification words it: the characters
adjacent to the occurrence (when they exist) are neither alphanumeric
nor underscore. -/
def standaloneSpec (line : List Char) (p n : Nat) : Prop :=
  (p = 0 ∨ ¬(isAlnum (line.getD (p - 1) ' ') || line.getD (p - 1) ' ' = '_')) ∧
  (line.length ≤ p + n ∨ ¬(isAlnum (line.getD (p + n) ' ') || line.getD (p + n) ' ' = '_'))

instance (line : List Char) (p n : Nat) : Decidable (standaloneSpec line p n) := by
  unfold standaloneSpec
  infer_instance

end LocFix

/-!
## A small regex engine with capture groups

Faithful to the fragment of Python `re` used by the rewriter scripts:
literals, character classes, `\w`, `\s`, greedy `*`/`+`, lazy `*?` and
`??` (over single-character items, the only way the scripts use them),
ordered alternation and numbered capture groups, with full backtracking;
`re.sub` scans for leftmost non-overlapping matches.  `\w`/`\s` are the
ASCII classes.
-/

namespace RX

def isWord (c : Char) : Bool := c.isAlpha || c.isDigit || c = '_'

def isWS (c : Char) : Bool :=
  c = ' ' || c = '\t' || c = '\n' || c = '\r' || c = '\x0b' || c = '\x0c'

/-- A single-character matcher: literal, character class (positive or
negated), `\w`, `\s`. -/
inductive CT where
  | lit (c : Char)
  | cls (cs : List Char) (pos : Bool)
  | wd
  | wsc
deriving DecidableEq

def CT.test : CT → Char → Bool
  | .lit c, d => d = c
  | .cls cs pos, d => cs.contains d = pos
  | .wd, d => isWord d
  | .wsc, d => isWS d

/-- Regex tokens.  `star`/`plus` are greedy, `starL`/`optL` lazy;
`alt` tries its branches in order; `grpO n`/`grpC n` delimit capture
group `n`. -/
inductive Tok where
  | one (t : CT)
  | star (t : CT)
  | starL (t : CT)
  | plus (t : CT)
  | optL (t : CT)
  | alt (bs : List (List Tok))
  | grpO (n : Nat)
  | grpC (n : Nat)

mutual

def tokSize : Tok → Nat
  | .alt bs => 2 + brSize bs
  | .plus _ => 3
  | _ => 1

def brSize : List (List Tok) → Nat
  | [] => 0
  | b :: bs => 1 + listSize b + brSize bs

def listSize : List Tok → Nat
  | [] => 0
  | t :: ts => tokSize t + listSize ts

end

theorem listSize_append (a b : List Tok) : listSize (a ++ b) = listSize a + listSize b := by
  induction a with
  | nil => simp [listSize]
  | cons t ts ih => simp [listSize, ih]; omega

theorem listSize_branch {b : List Tok} {bs : List (List Tok)} (h : b ∈ bs) :
    listSize b < brSize bs := by
  induction bs with
  | nil => cases h
  | cons b2 bs ih =>
    rcases List.mem_cons.mp h with h1 | h2
    · subst h1; simp [brSize]; omega
    · have := ih h2; simp [brSize]; omega

/-- Matcher state: remaining input, currently open groups (innermost
first, captured characters reversed), and closed captures. -/
structure MS where
  rest : List Char
  openG : List (Nat × List Char)
  caps : List (Nat × List Char)
deriving DecidableEq

/-- Consume one character: remove it from the input and record it in
every open group. -/
def consume1 (c : Char) (r : List Char) (ms : MS) : MS :=
  { rest := r
    openG := ms.openG.map (fun g => (g.1, c :: g.2))
    caps := ms.caps }

/-- Number of leading characters of `l` accepted by `t`. -/
def countC (t : CT) : List Char → Nat
  | [] => 0
  | c :: r => if t.test c then countC t r + 1 else 0

/-- Consume `k` characters (callers keep `k` at most the munchable
count). -/
def consumeN (t : CT) : Nat → MS → MS
  | 0, ms => ms
  | k + 1, ms =>
    match ms.rest with
    | [] => ms
    | c :: r => if t.test c then consumeN t k (consume1 c r ms) else ms

mutual

/-- The backtracking matcher: tokens against a state. -/
def mat : List Tok → MS → Option MS
  | [], ms => some ms
  | .one t :: ts, ms =>
    match ms.rest with
    | [] => none
    | c :: r => if t.test c then mat ts (consume1 c r ms) else none
  | .star t :: ts, ms => starTry t ts ms (countC t ms.rest)
  | .starL t :: ts, ms => lazyTry t ts ms ms.rest.length
  | .plus t :: ts, ms => mat (.one t :: .star t :: ts) ms
  | .optL t :: ts, ms =>
    match mat ts ms with
    | some r => some r
    | none =>
      match ms.rest with
      | [] => none
      | c :: r => if t.test c then mat ts (consume1 c r ms) else none
  | .alt bs :: ts, ms => altTry bs ts ms
  | .grpO n :: ts, ms => mat ts { ms with openG := (n, []) :: ms.openG }
  | .grpC n :: ts, ms =>
    match ms.openG with
    | [] => none
    | g :: gs =>
      mat ts { rest := ms.rest
               openG := gs.map (fun g2 => (g2.1, g.2 ++ g2.2))
               caps := ms.caps ++ [(n, g.2.reverse)] }
termination_by toks _ => (listSize toks, 0)
decreasing_by
  all_goals simp_all [Prod.lex_def, listSize, tokSize]
  all_goals omega

/-- Greedy repetition: try `k` characters, then backtrack downwards. -/
def starTry (t : CT) (ts : List Tok) (ms : MS) (k : Nat) : Option MS :=
  match mat ts (consumeN t k ms) with
  | some r => some r
  | none =>
    match k with
    | 0 => none
    | k + 1 => starTry t ts ms k
termination_by (listSize ts, k + 1)
decreasing_by
  all_goals simp_all [Prod.lex_def, listSize, tokSize]

/-- Lazy repetition: try the continuation first, then consume one more
character, within `budget`. -/
def lazyTry (t : CT) (ts : List Tok) (ms : MS) (budget : Nat) : Option MS :=
  match mat ts ms with
  | some r => some r
  | none =>
    match budget, ms.rest with
    | b + 1, c :: r => if t.test c then lazyTry t ts (consume1 c r ms) b else none
    | _, _ => none
termination_by (listSize ts, budget + 1)
decreasing_by
  all_goals simp_all [Prod.lex_def, listSize, tokSize]

/-- Ordered alternation. -/
def altTry (bs : List (List Tok)) (ts : List Tok) (ms : MS) : Option MS :=
  match bs with
  | [] => none
  | b :: rest =>
    match mat (b ++ ts) ms with
    | some r => some r
    | none => altTry rest ts ms
termination_by (1 + brSize bs + listSize ts, 0)
decreasing_by
  all_goals simp_all [Prod.lex_def, listSize, tokSize, brSize, listSize_append]
  all_goals omega

end

/-- Attempt a match at the head of `s`; `some (k, caps)` is the length
of the match and the closed captures. -/
def matchAt (pat : List Tok) (s : List Char) : Option (Nat × List (Nat × List Char)) :=
  match mat pat { rest := s, openG := [], caps := [] } with
  | some ms => some (s.length - ms.rest.length, ms.caps)
  | none => none

/-- Replacement template items: literal text or a group reference. -/
inductive RI where
  | txt (cs : List Char)
  | ref (n : Nat)
deriving DecidableEq

def splice (caps : List (Nat × List Char)) : List RI → List Char
  | [] => []
  | .txt cs :: rest => cs ++ splice caps rest
  | .ref n :: rest =>
    (match caps.find? (fun g => g.1 = n) with
     | some g => g.2
     | none => []) ++ splice caps rest

/-- `re.sub`, also counting replacements (`re.subn`): leftmost
non-overlapping matches, scanning left to right.  The patterns of the
scripts never match the empty string (each contains a mandatory literal
or `\w+`), so a zero-length match is treated as no match. -/
def gsub (pat : List Tok) (tpl : List RI) : List Char → List Char × Nat
  | [] => ([], 0)
  | c :: rest =>
    match matchAt pat (c :: rest) with
    | some kc =>
      if 1 ≤ kc.1 then
        let r := gsub pat tpl (rest.drop (kc.1 - 1))
        (splice kc.2 tpl ++ r.1, r.2 + 1)
      else
        let r := gsub pat tpl rest
        (c :: r.1, r.2)
    | none =>
      let r := gsub pat tpl rest
      (c :: r.1, r.2)
termination_by l => l.length
decreasing_by
  all_goals simp
  all_goals omega

/-- Shorthand for a literal token sequence. -/
def lits (s : String) : List Tok := s.toList.map (fun c => .one (.lit c))

/-- Shorthand for a class over the characters of `s`. -/
def clsOf (s : String) (pos : Bool) : CT := .cls s.toList pos

/-- Python `needle in haystack` (substring test). -/
def hasSub (needle : List Char) : List Char → Bool
  | [] => needle.isEmpty
  | c :: r => needle.isPrefixOf (c :: r) || hasSub needle r

/-- Literal token sequence from a character list. -/
def litsL (L : List Char) : List Tok := L.map (fun c => Tok.one (.lit c))

mutual

/-- Fuel-indexed evaluator for `mat`; `none` means out of fuel. -/
def matF : Nat → List Tok → MS → Option (Option MS)
  | 0, _, _ => none
  | f + 1, toks, ms =>
    match toks with
    | [] => some (some ms)
    | .one t :: ts =>
      match ms.rest with
      | [] => some none
      | c :: r => if t.test c then matF f ts (consume1 c r ms) else some none
    | .star t :: ts => starF f t ts ms (countC t ms.rest)
    | .starL t :: ts => lazyF f t ts ms ms.rest.length
    | .plus t :: ts => matF f (.one t :: .star t :: ts) ms
    | .optL t :: ts =>
      match matF f ts ms with
      | none => none
      | some (some r) => some (some r)
      | some none =>
        match ms.rest with
        | [] => some none
        | c :: r => if t.test c then matF f ts (consume1 c r ms) else some none
    | .alt bs :: ts => altF f bs ts ms
    | .grpO n :: ts => matF f ts { ms with openG := (n, []) :: ms.openG }
    | .grpC n :: ts =>
      match ms.openG with
      | [] => some none
      | g :: gs =>
        matF f ts { rest := ms.rest
                    openG := gs.map (fun g2 => (g2.1, g.2 ++ g2.2))
                    caps := ms.caps ++ [(n, g.2.reverse)] }

/-- Fuel-indexed evaluator for `starTry`. -/
def starF : Nat → CT → List Tok → MS → Nat → Option (Option MS)
  | 0, _, _, _, _ => none
  | f + 1, t, ts, ms, k =>
    match matF f ts (consumeN t k ms) with
    | none => none
    | some (some r) => some (some r)
    | some none =>
      match k with
      | 0 => some none
      | k + 1 => starF f t ts ms k

/-- Fuel-indexed evaluator for `lazyTry`. -/
def lazyF : Nat → CT → List Tok → MS → Nat → Option (Option MS)
  | 0, _, _, _, _ => none
  | f + 1, t, ts, ms, budget =>
    match matF f ts ms with
    | none => none
    | some (some r) => some (some r)
    | some none =>
      match budget, ms.rest with
      | b + 1, c :: r =>
        if t.test c then lazyF f t ts (consume1 c r ms) b else some none
      | _, _ => some none

/-- Fuel-indexed evaluator for `altTry`. -/
def altF : Nat → List (List Tok) → List Tok → MS → Option (Option MS)
  | 0, _, _, _ => none
  | f + 1, bs, ts, ms =>
    match bs with
    | [] => some none
    | b :: rest =>
      match matF f (b ++ ts) ms with
      | none => none
      | some (some r) => some (some r)
      | some none => altF f rest ts ms

end

/-- Fuel-indexed evaluator for `gsub`. -/
def gsubF : Nat → List Tok → List RI → List Char → Option (List Char × Nat)
  | 0, _, _, _ => none
  | f + 1, pat, tpl, l =>
    match l with
    | [] => some ([], 0)
    | c :: rest =>
      match matF f pat ⟨c :: rest, [], []⟩ with
      | none => none
      | some none =>
        match gsubF f pat tpl rest with
        | none => none
        | some r => some (c :: r.1, r.2)
      | some (some ms) =>
        if 1 ≤ (c :: rest).length - ms.rest.length then
          match gsubF f pat tpl (rest.drop ((c :: rest).length - ms.rest.length - 1)) with
          | none => none
          | some r => some (splice ms.caps tpl ++ r.1, r.2 + 1)
        else
          match gsubF f pat tpl rest with
          | none => none
          | some r => some (c :: r.1, r.2)

end RX

/-!
## Declaration-pattern unused-variable rewriter —
src/scripts/fix_all_unused_vars.py, `fix_unused_vars`

For each file the flagged variable names are processed in order; a
variable whose underscored form `_name` already occurs anywhere in the
(current) content is skipped, otherwise ALL nine patterns are applied in
order, each `pattern.sub` rewriting every match in the whole content.
The flagged name is a `\w+` identifier, so `re.escape` leaves it
unchanged and it is embedded as a literal. -/

namespace AllUnused

open RX

/-- The nine `(pattern, replacement)` pairs, parameterised by the
flagged variable name. -/
def patterns (v : List Char) : List (List Tok × List RI) :=
  let var := v.map (fun c => Tok.one (.lit c))
  [ -- (const|let|var)\s+(VAR)(\s*[:=]|\s+in\s+|\s+of\s+)  ->  \1 _\2\3
    ([.grpO 1, .alt [lits "const", lits "let", lits "var"], .grpC 1, .plus .wsc,
      .grpO 2] ++ var ++ [.grpC 2,
      .grpO 3, .alt [[.star .wsc, .one (clsOf ":=" true)],
                     [.plus .wsc] ++ lits "in" ++ [.plus .wsc],
                     [.plus .wsc] ++ lits "of" ++ [.plus .wsc]], .grpC 3],
     [.ref 1, .txt " _".toList, .ref 2, .ref 3]),
    -- (\(|,\s*)(VAR)(\s*[:),])  ->  \1_\2\3
    ([.grpO 1, .alt [[.one (.lit '(')], [.one (.lit ','), .star .wsc]], .grpC 1,
      .grpO 2] ++ var ++ [.grpC 2,
      .grpO 3, .star .wsc, .one (clsOf ":)," true), .grpC 3],
     [.ref 1, .txt "_".toList, .ref 2, .ref 3]),
    -- (\{[^}]*?)(VAR)(\s*[,}])  ->  \1_\2\3
    ([.grpO 1, .one (.lit '{'), .starL (clsOf "\x7d" false), .grpC 1,
      .grpO 2] ++ var ++ [.grpC 2,
      .grpO 3, .star .wsc, .one (clsOf ",\x7d" true), .grpC 3],
     [.ref 1, .txt "_".toList, .ref 2, .ref 3]),
    -- (function\s+)(VAR)(\s*\()  ->  \1_\2\3
    ([.grpO 1] ++ lits "function" ++ [.plus .wsc, .grpC 1,
      .grpO 2] ++ var ++ [.grpC 2,
      .grpO 3, .star .wsc, .one (.lit '('), .grpC 3],
     [.ref 1, .txt "_".toList, .ref 2, .ref 3]),
    -- (import\s+\{[^}]*?)(VAR)(\s*[,}])  ->  \1_\2\3
    ([.grpO 1] ++ lits "import" ++ [.plus .wsc, .one (.lit '{'), .starL (clsOf "\x7d" false), .grpC 1,
      .grpO 2] ++ var ++ [.grpC 2,
      .grpO 3, .star .wsc, .one (clsOf ",\x7d" true), .grpC 3],
     [.ref 1, .txt "_".toList, .ref 2, .ref 3]),
    -- (import\s+)(VAR)(\s+from)  ->  \1_\2\3
    ([.grpO 1] ++ lits "import" ++ [.plus .wsc, .grpC 1,
      .grpO 2] ++ var ++ [.grpC 2,
      .grpO 3, .plus .wsc] ++ lits "from" ++ [.grpC 3],
     [.ref 1, .txt "_".toList, .ref 2, .ref 3]),
    -- (private|protected|public)\s+(VAR)(\s*[:=])  ->  \1 _\2\3
    ([.grpO 1, .alt [lits "private", lits "protected", lits "public"], .grpC 1, .plus .wsc,
      .grpO 2] ++ var ++ [.grpC 2,
      .grpO 3, .star .wsc, .one (clsOf ":=" true), .grpC 3],
     [.ref 1, .txt " _".toList, .ref 2, .ref 3]),
    -- (\(\s*)(VAR)(\s*\)\s*=>)  ->  \1_\2\3
    ([.grpO 1, .one (.lit '('), .star .wsc, .grpC 1,
      .grpO 2] ++ var ++ [.grpC 2,
      .grpO 3, .star .wsc, .one (.lit ')'), .star .wsc] ++ lits "=>" ++ [.grpC 3],
     [.ref 1, .txt "_".toList, .ref 2, .ref 3]),
    -- (method\([^)]*?)(VAR)(\s*[,)])  ->  \1_\2\3
    ([.grpO 1] ++ lits "method" ++ [.one (.lit '('), .starL (clsOf ")" false), .grpC 1,
      .grpO 2] ++ var ++ [.grpC 2,
      .grpO 3, .star .wsc, .one (clsOf ",)" true), .grpC 3],
     [.ref 1, .txt "_".toList, .ref 2, .ref 3]) ]

/-- The per-variable body of the `for variable in variables` loop:
skip when `'_' + variable` occurs in the content, otherwise apply all
nine substitutions in order. -/
def fixVariable (content : List Char) (v : String) : List Char :=
  if hasSub ('_' :: v.toList) content then content
  else (patterns v.toList).foldl (fun c (pr : List Tok × List RI) => (gsub pr.1 pr.2 c).1) content

/-- Processing of one file content for a list of flagged variables. -/
def fixFileVars (content : List Char) (vs : List String) : List Char :=
  vs.foldl fixVariable content

/-- Fuel-indexed evaluator for `fixVariable`. -/
def fixVariableF (f : Nat) (content : List Char) (v : String) : Option (List Char) :=
  if hasSub ('_' :: v.toList) content then some content
  else (patterns v.toList).foldl
    (fun c pr => match c with
      | none => none
      | some c2 => (gsubF f pr.1 pr.2 c2).map Prod.fst) (some content)

end AllUnused

/-!
## The `any`-type rewriter of src/scripts/fix_eslint_issues.py,
`fix_no_explicit_any`

Seventeen `(pattern, replacement)` pairs applied in order with
`re.subn`, counts summed. -/

namespace EslintAny

open RX

def wplus : List Tok := [.grpO 1, .plus .wd, .grpC 1]

def patterns : List (List Tok × List RI) :=
  [ -- \((\w+)\s*:\s*any\)  ->  (\1: unknown)
    ([.one (.lit '(')] ++ wplus ++ [.star .wsc, .one (.lit ':'), .star .wsc] ++ lits "any" ++ [.one (.lit ')')],
     [.txt "(".toList, .ref 1, .txt ": unknown)".toList]),
    -- \((\w+)\s*:\s*any\[\]\)  ->  (\1: unknown[])
    ([.one (.lit '(')] ++ wplus ++ [.star .wsc, .one (.lit ':'), .star .wsc] ++ lits "any[])",
     [.txt "(".toList, .ref 1, .txt ": unknown[])".toList]),
    -- \)\s*:\s*any\s*\{  ->  ): unknown {
    ([.one (.lit ')'), .star .wsc, .one (.lit ':'), .star .wsc] ++ lits "any" ++ [.star .wsc, .one (.lit '{')],
     [.txt "): unknown \x7b".toList]),
    -- \)\s*:\s*any\[\]\s*\{  ->  ): unknown[] {
    ([.one (.lit ')'), .star .wsc, .one (.lit ':'), .star .wsc] ++ lits "any[]" ++ [.star .wsc, .one (.lit '{')],
     [.txt "): unknown[] \x7b".toList]),
    -- (const|let|var)\s+(\w+)\s*:\s*any\s*=  ->  \1 \2: unknown =
    ([.grpO 1, .alt [lits "const", lits "let", lits "var"], .grpC 1, .plus .wsc,
      .grpO 2, .plus .wd, .grpC 2, .star .wsc, .one (.lit ':'), .star .wsc] ++ lits "any" ++ [.star .wsc, .one (.lit '=')],
     [.ref 1, .txt " ".toList, .ref 2, .txt ": unknown =".toList]),
    -- (const|let|var)\s+(\w+)\s*:\s*any\[\]\s*=  ->  \1 \2: unknown[] =
    ([.grpO 1, .alt [lits "const", lits "let", lits "var"], .grpC 1, .plus .wsc,
      .grpO 2, .plus .wd, .grpC 2, .star .wsc, .one (.lit ':'), .star .wsc] ++ lits "any[]" ++ [.star .wsc, .one (.lit '=')],
     [.ref 1, .txt " ".toList, .ref 2, .txt ": unknown[] =".toList]),
    -- (\w+)\??:\s*any;  ->  \1?: unknown;
    (wplus ++ [.optL (.lit '?'), .one (.lit ':'), .star .wsc] ++ lits "any;",
     [.ref 1, .txt "?: unknown;".toList]),
    -- (\w+)\??:\s*any\[\];  ->  \1?: unknown[];
    (wplus ++ [.optL (.lit '?'), .one (.lit ':'), .star .wsc] ++ lits "any[];",
     [.ref 1, .txt "?: unknown[];".toList]),
    -- <any>  ->  <unknown>
    (lits "<any>", [.txt "<unknown>".toList]),
    -- <any\[\]>  ->  <unknown[]>
    (lits "<any[]>", [.txt "<unknown[]>".toList]),
    -- Record<string,\s*any>  ->  Record<string, unknown>
    (lits "Record<string," ++ [.star .wsc] ++ lits "any>",
     [.txt "Record<string, unknown>".toList]),
    -- Record<number,\s*any>  ->  Record<number, unknown>
    (lits "Record<number," ++ [.star .wsc] ++ lits "any>",
     [.txt "Record<number, unknown>".toList]),
    -- (\w+\??:\s*)any(\s*,)  ->  \1unknown\2
    ([.grpO 1, .plus .wd, .optL (.lit '?'), .one (.lit ':'), .star .wsc, .grpC 1] ++ lits "any" ++
      [.grpO 2, .star .wsc, .one (.lit ','), .grpC 2],
     [.ref 1, .txt "unknown".toList, .ref 2]),
    -- context\??:\s*any  ->  context?: Record<string, unknown>
    (lits "context" ++ [.optL (.lit '?'), .one (.lit ':'), .star .wsc] ++ lits "any",
     [.txt "context?: Record<string, unknown>".toList]),
    -- options\??:\s*any  ->  options?: Record<string, unknown>
    (lits "options" ++ [.optL (.lit '?'), .one (.lit ':'), .star .wsc] ++ lits "any",
     [.txt "options?: Record<string, unknown>".toList]),
    -- data\??:\s*any  ->  data?: Record<string, unknown>
    (lits "data" ++ [.optL (.lit '?'), .one (.lit ':'), .star .wsc] ++ lits "any",
     [.txt "data?: Record<string, unknown>".toList]),
    -- hash\??:\s*any  ->  hash?: Record<string, unknown>
    (lits "hash" ++ [.optL (.lit '?'), .one (.lit ':'), .star .wsc] ++ lits "any",
     [.txt "hash?: Record<string, unknown>".toList]) ]

/-- `fix_no_explicit_any` on a file content: all seventeen
substitutions in order, summing the replacement counts. -/
def fix_no_explicit_any (content : List Char) : List Char × Nat :=
  patterns.foldl (fun acc (pr : List Tok × List RI) =>
    let r := gsub pr.1 pr.2 acc.1
    (r.1, acc.2 + r.2)) (content, 0)

end EslintAny

/-!
## The `any`-type rewriter — src/scripts/fix_any_types.py

Eight substitutions applied in order, each a global `pattern.sub`; the
file is written back when any `pattern.search` succeeded.  These eight
patterns use only literals, `\s*`, `\s+` and a final `\b`, and in each
of them every `\s*`/`\s+` is followed by a non-whitespace literal, so
the backtracking regex semantics coincide with a deterministic
maximal-munch scanner; `\b` after `y` is exactly "next character is not
a word character (or end of input)".  The matcher below is that
scanner; `gsubN` is `re.sub`'s leftmost non-overlapping global
substitution. -/

namespace FixAny

def isWS (c : Char) : Bool := RX.isWS c

def isWord (c : Char) : Bool := RX.isWord c

/-- Tokens of the eight patterns: a literal, `\s*`, `\s+`, and the
trailing word boundary `\b` (which consumes nothing and checks the next
character). -/
inductive Tok where
  | lit (c : Char)
  | ws0
  | ws1
  | wordB
deriving DecidableEq

def countWS : List Char → Nat
  | [] => 0
  | c :: r => if isWS c then countWS r + 1 else 0

/-- Run a token list at the head of the input, returning the consumed
length. -/
def runTok : List Tok → List Char → Option Nat
  | [], _ => some 0
  | .lit _ :: _, [] => none
  | .lit c :: ts, d :: l => if d = c then (runTok ts l).map (fun n => n + 1) else none
  | .ws0 :: ts, l => (runTok ts (l.drop (countWS l))).map (fun n => n + countWS l)
  | .ws1 :: ts, l =>
    if countWS l = 0 then none
    else (runTok ts (l.drop (countWS l))).map (fun n => n + countWS l)
  | .wordB :: ts, [] => runTok ts []
  | .wordB :: ts, d :: l => if isWord d then none else runTok ts (d :: l)

/-- Outcome of running a token list against a complete prefix `u`:
failed inside `u`; matched within `u` consuming `k`; or consumed all of
`u` with `ts` still pending (continuing in whatever follows `u`). -/
inductive FeedR where
  | fail
  | done (k : Nat)
  | more (ts : List Tok)
deriving DecidableEq

def FeedR.push : FeedR → FeedR
  | .fail => .fail
  | .done k => .done (k + 1)
  | .more ts => .more ts

def FeedR.pushN (n : Nat) : FeedR → FeedR
  | .fail => .fail
  | .done k => .done (k + n)
  | .more ts => .more ts

def feed : List Tok → List Char → FeedR
  | [], _ => .done 0
  | .lit c :: ts, [] => .more (.lit c :: ts)
  | .lit c :: ts, d :: u => if d = c then (feed ts u).push else .fail
  | .ws0 :: ts, u =>
    if countWS u = u.length then .more (.ws0 :: ts)
    else (feed ts (u.drop (countWS u))).pushN (countWS u)
  | .ws1 :: ts, u =>
    if u = [] then .more (.ws1 :: ts)
    else if countWS u = 0 then .fail
    else if countWS u = u.length then .more (.ws0 :: ts)
    else (feed ts (u.drop (countWS u))).pushN (countWS u)
  | .wordB :: ts, [] => .more (.wordB :: ts)
  | .wordB :: ts, d :: u => if isWord d then .fail else feed ts (d :: u)

/-- Leftmost non-overlapping global substitution with a fixed
replacement (`re.sub`); the eight patterns cannot match the empty
string (each starts with a literal), matching Python semantics. -/
def gsubN (p : List Tok) (rep : List Char) : List Char → List Char × Nat
  | [] => ([], 0)
  | c :: cs =>
    match runTok p (c :: cs) with
    | some k =>
      let r := gsubN p rep (cs.drop (k - 1))
      (rep ++ r.1, r.2 + 1)
    | none =>
      let r := gsubN p rep cs
      (c :: r.1, r.2)
termination_by l => l.length
decreasing_by
  all_goals simp
  all_goals omega

/-- `pattern.search` succeeds somewhere in the input. -/
def fires (p : List Tok) : List Char → Bool
  | [] => (runTok p []).isSome
  | c :: cs => (runTok p (c :: cs)).isSome || fires p cs

def mklits (s : String) : List Tok := s.toList.map Tok.lit

def P1 : List Tok := mklits "Record<string," ++ [.ws0] ++ mklits "any>"

def R1 : List Char := "Record<string, unknown>".toList

def P2 : List Tok := mklits "Record<string," ++ [.ws0] ++ mklits "any[]>"

def R2 : List Char := "Record<string, unknown[]>".toList

def P3 : List Tok := mklits "any[]"

def R3 : List Char := "unknown[]".toList

def P4 : List Tok := mklits "Array<any>"

def R4 : List Char := "Array<unknown>".toList

def P5 : List Tok := mklits "Promise<any>"

def R5 : List Char := "Promise<unknown>".toList

def P6 : List Tok := [.lit ':', .ws0] ++ mklits "any" ++ [.wordB]

def R6 : List Char := ": unknown".toList

def P7 : List Tok := mklits "<any>"

def R7 : List Char := "<unknown>".toList

def P8 : List Tok := mklits "as" ++ [.ws1] ++ mklits "any" ++ [.wordB]

def R8 : List Char := "as unknown".toList

/-- The eight `(pattern, replacement)` pairs of `fix_any_types`, in
source order. -/
def SUBS : List (List Tok × List Char) :=
  [(P1, R1), (P2, R2), (P3, R3), (P4, R4), (P5, R5), (P6, R6), (P7, R7), (P8, R8)]

/-- One pass of `fix_any_types` over a file content: all eight
substitutions in order; the flag is `file_modified` (some
`pattern.search` succeeded, upon which the substitution is applied). -/
def fix_any_types (l : List Char) : List Char × Bool :=
  SUBS.foldl (fun acc (pr : List Tok × List Char) =>
    if fires pr.1 acc.1 then ((gsubN pr.1 pr.2 acc.1).1, true) else (acc.1, acc.2)) (l, false)

/-- The content component of one substitution stage. -/
def step (x : List Char) (pr : List Tok × List Char) : List Char :=
  if fires pr.1 x then (gsubN pr.1 pr.2 x).1 else x

/-!
Auxiliary notions for the idempotence proof.  `STATES` is the set of
intermediate matcher states reachable while scanning with any of the
eight patterns: the suffixes of their token lists (a `\s+` that has
already consumed a character continues as the corresponding `\s*`
suffix, which for `P8` is a suffix of `P6`, hence already present).
-/

/-- All suffixes of a token list. -/
def sufs : List Tok → List (List Tok)
  | [] => [[]]
  | t :: ts => (t :: ts) :: sufs ts

def STATES : List (List Tok) :=
  sufs P1 ++ sufs P2 ++ sufs P3 ++ sufs P4 ++ sufs P5 ++ sufs P6 ++ sufs P7 ++ sufs P8

/-- The non-empty suffixes of a character list. -/
def csufs : List Char → List (List Char)
  | [] => []
  | c :: cs => (c :: cs) :: csufs cs

/-- Closure of `STATES` under the scanner's single-character
transitions. -/
def closedB : Bool :=
  STATES.all (fun ts =>
    match ts with
    | [] => true
    | .lit _ :: t => decide (t ∈ STATES)
    | .ws0 :: t => decide (t ∈ STATES)
    | .ws1 :: t => decide ((Tok.ws0 :: t) ∈ STATES)
    | .wordB :: t => decide (t ∈ STATES))

/-- A pending state either dies inside the replacement text, or (the
word-boundary state) completes already on the first character of the
text the replacement replaced. -/
def feedB (ts : List Tok) (rep : List Char) (fc : Char) : Bool :=
  match feed ts rep with
  | .fail => true
  | .done _ => (match feed ts [fc] with | .done _ => true | _ => false)
  | .more _ => false

/-- Side conditions of one `(pattern, replacement)` pair against the
whole substitution list: the pattern starts with a literal and is a
state; every state dies on (or completes at) the replacement; no
pattern can start matching inside the replacement. -/
def pairOK (q : List Tok) (rep : List Char) : Bool :=
  match q with
  | .lit fc :: _ =>
    decide (q ∈ STATES) &&
    STATES.all (fun ts => feedB ts rep fc) &&
    SUBS.all (fun pr => (csufs rep).all (fun t => decide (feed pr.1 t = .fail)))
  | _ => false

/-- The structure of a `gsubN p rep` run: at each position either the
pattern fails and the character is kept, or it matches `k ≥ 1`
characters which are replaced by `rep`. -/
inductive GS (p : List Tok) (rep : List Char) : List Char → List Char → Prop
  | nil : GS p rep [] []
  | keep {c : Char} {cs o : List Char} :
      runTok p (c :: cs) = none → GS p rep cs o → GS p rep (c :: cs) (c :: o)
  | sub {c : Char} {cs o : List Char} {k : Nat} :
      runTok p (c :: cs) = some k → GS p rep (cs.drop (k - 1)) o →
      GS p rep (c :: cs) (rep ++ o)

/-- Resuming a feed outcome on the text that follows the prefix. -/
def feedGlue (r : FeedR) (v : List Char) (ulen : Nat) : Option Nat :=
  match r with
  | .fail => none
  | .done k => some k
  | .more ts2 => (runTok ts2 v).map (fun n => n + ulen)

end FixAny

end SiteGen

/-! # Theorems -/


namespace SiteGen

namespace FixAny

theorem countWS_cons_ws {c : Char} (h : isWS c = true) (l : List Char) :
    countWS (c :: l) = countWS l + 1 := by
  simp [countWS, h]

theorem countWS_cons_nws {c : Char} (h : isWS c = false) (l : List Char) :
    countWS (c :: l) = 0 := by
  simp [countWS, h]

theorem countWS_le (l : List Char) : countWS l ≤ l.length := by
  induction l with
  | nil => simp [countWS]
  | cons c r ih =>
    rcases hw : isWS c with hf | ht
    · rw [countWS_cons_nws hw]
      omega
    · rw [countWS_cons_ws hw]
      simp only [List.length_cons]
      omega

theorem runTok_ws0_cons_ws {c : Char} (h : isWS c = true) (ts : List Tok) (l : List Char) :
    runTok (.ws0 :: ts) (c :: l) = (runTok (.ws0 :: ts) l).map (fun n => n + 1) := by
  simp only [runTok, countWS_cons_ws h, List.drop_succ_cons, Option.map_map]
  rfl

theorem runTok_ws0_cons_nws {c : Char} (h : isWS c = false) (ts : List Tok) (l : List Char) :
    runTok (.ws0 :: ts) (c :: l) = runTok ts (c :: l) := by
  simp [runTok, countWS_cons_nws h]

theorem runTok_ws1_cons_ws {c : Char} (h : isWS c = true) (ts : List Tok) (l : List Char) :
    runTok (.ws1 :: ts) (c :: l) = (runTok (.ws0 :: ts) l).map (fun n => n + 1) := by
  simp only [runTok, countWS_cons_ws h, List.drop_succ_cons, Option.map_map,
    Nat.succ_ne_zero, if_false]
  rfl

theorem runTok_ws1_cons_nws {c : Char} (h : isWS c = false) (ts : List Tok) (l : List Char) :
    runTok (.ws1 :: ts) (c :: l) = none := by
  simp [runTok, countWS_cons_nws h]

theorem countWS_append_full {u : List Char} (h : countWS u = u.length) (v : List Char) :
    countWS (u ++ v) = u.length + countWS v := by
  induction u with
  | nil => simp
  | cons c r ih =>
    rcases hw : isWS c with hf | ht
    · rw [countWS_cons_nws hw] at h
      exact absurd h (by simp)
    · rw [countWS_cons_ws hw] at h
      simp only [List.length_cons] at h
      have h2 : countWS r = r.length := by omega
      simp only [List.cons_append, countWS_cons_ws hw, ih h2, List.length_cons]
      omega

theorem countWS_append_stop {u : List Char} (h : countWS u ≠ u.length) (v : List Char) :
    countWS (u ++ v) = countWS u := by
  induction u with
  | nil => simp [countWS] at h
  | cons c r ih =>
    rcases hw : isWS c with hf | ht
    · simp [countWS_cons_nws hw]
    · rw [countWS_cons_ws hw] at h ⊢
      simp only [List.length_cons] at h
      have h2 : countWS r ≠ r.length := by
        intro he
        exact h (by omega)
      simp [List.cons_append, countWS_cons_ws hw, ih h2]

theorem runTok_append (ts : List Tok) (u v : List Char) :
    runTok ts (u ++ v) = feedGlue (feed ts u) v u.length := by
  induction ts, u using feed.induct with
  | case1 u =>
    simp [runTok, feed, feedGlue]
  | case2 c tl =>
    simp [runTok, feed, feedGlue]
  | case3 ts d l ih =>
    have h1 : runTok (Tok.lit d :: ts) ((d :: l) ++ v) =
        (runTok ts (l ++ v)).map (fun n => n + 1) := by
      simp [runTok]
    have h2 : feed (Tok.lit d :: ts) (d :: l) = (feed ts l).push := by
      simp [feed]
    rw [h1, h2, ih]
    cases hfd : feed ts l <;>
      simp [feedGlue, FeedR.push, Option.map_map]
  | case4 c ts d l hne =>
    simp [runTok, feed, hne, feedGlue]
  | case5 ts l hfull =>
    simp only [feed, if_pos hfull, feedGlue]
    have hc : countWS (l ++ v) = l.length + countWS v := countWS_append_full hfull v
    simp only [runTok, hc, ← List.drop_drop, List.drop_left]
    rcases runTok ts (v.drop (countWS v)) with _ | n
    · simp
    · simp only [Option.map_map, Option.map_some', Function.comp_apply, Option.some.injEq]
      omega
  | case6 ts l hfull ih =>
    have hc : countWS (l ++ v) = countWS l := countWS_append_stop hfull v
    have hle : countWS l ≤ l.length := countWS_le l
    have h1 : runTok (Tok.ws0 :: ts) (l ++ v) =
        (runTok ts ((l.drop (countWS l)) ++ v)).map (fun n => n + countWS l) := by
      simp only [runTok, hc, List.drop_append_of_le_length hle]
    have h2 : feed (Tok.ws0 :: ts) l = (feed ts (l.drop (countWS l))).pushN (countWS l) := by
      simp only [feed, if_neg hfull]
    rw [h1, h2, ih]
    cases hfd : feed ts (l.drop (countWS l)) <;>
      simp [feedGlue, FeedR.pushN, Option.map_map]
    congr 1
    funext n
    simp [List.length_drop]
    omega
  | case7 ts =>
    simp [runTok, feed, feedGlue]
  | case8 ts l hne hz =>
    rcases l with _ | ⟨c, r⟩
    · exact absurd rfl hne
    · have hw : isWS c = false := by
        by_contra hb
        rw [Bool.not_eq_false] at hb
        rw [countWS_cons_ws hb] at hz
        omega
      simp [List.cons_append, runTok_ws1_cons_nws hw, feed, hz, hne, feedGlue]
  | case9 ts l hne hz hfull =>
    have hc : countWS (l ++ v) = l.length + countWS v := countWS_append_full hfull v
    have hz2 : l.length ≠ 0 := by
      intro h0
      rw [h0] at hfull
      exact hz hfull
    have hnz : ¬countWS (l ++ v) = 0 := by
      intro h0
      rw [hc] at h0
      omega
    have h1 : runTok (Tok.ws1 :: ts) (l ++ v) =
        (runTok ts ((l ++ v).drop (countWS (l ++ v)))).map (fun n => n + countWS (l ++ v)) := by
      simp only [runTok, if_neg hnz]
    rw [h1, hc]
    rw [show (l ++ v).drop (l.length + countWS v) = v.drop (countWS v) from by
      rw [← List.drop_drop, List.drop_left]]
    simp only [feed, if_neg hne, if_neg hz, if_pos hfull, feedGlue]
    have h3 : runTok (Tok.ws0 :: ts) v =
        (runTok ts (v.drop (countWS v))).map (fun n => n + countWS v) := by
      simp only [runTok]
    rw [h3]
    rcases runTok ts (v.drop (countWS v)) with _ | n
    · simp
    · simp only [Option.map_map, Option.map_some', Function.comp_apply, Option.some.injEq]
      omega
  | case10 ts l hne hz hfull ih =>
    have hc : countWS (l ++ v) = countWS l := countWS_append_stop hfull v
    have hle : countWS l ≤ l.length := countWS_le l
    have h1 : runTok (Tok.ws1 :: ts) (l ++ v) =
        (runTok ts ((l.drop (countWS l)) ++ v)).map (fun n => n + countWS l) := by
      simp only [runTok, hc, if_neg hz, List.drop_append_of_le_length hle]
    have h2 : feed (Tok.ws1 :: ts) l = (feed ts (l.drop (countWS l))).pushN (countWS l) := by
      simp only [feed, if_neg hne, if_neg hz, if_neg hfull]
    rw [h1, h2, ih]
    cases hfd : feed ts (l.drop (countWS l)) <;>
      simp [feedGlue, FeedR.pushN, Option.map_map]
    congr 1
    funext n
    simp [List.length_drop]
    omega
  | case11 ts =>
    simp [runTok, feed, feedGlue]
  | case12 ts d l hw =>
    simp [runTok, feed, hw, feedGlue]
  | case13 ts d l hw ih =>
    have h2 : (d :: l) ++ v = (d :: (l ++ v)) := by simp
    have h3 : runTok (Tok.wordB :: ts) ((d :: l) ++ v) = runTok ts ((d :: l) ++ v) := by
      rw [h2]
      simp [runTok, hw]
    have h4 : feed (Tok.wordB :: ts) (d :: l) = feed ts (d :: l) := by
      simp [feed, hw]
    rw [h3, h4, ih]

end FixAny

end SiteGen

namespace SiteGen

namespace FixAny

theorem isSome_false_iff {α : Type} (x : Option α) : (x.isSome = false) ↔ x = none := by
  cases x <;> simp

theorem closed_true : closedB = true := by decide

theorem subs_ok : SUBS.all (fun pr => pairOK pr.1 pr.2) = true := by decide

theorem gs_gsubN (p : List Tok) (rep : List Char) (l : List Char) :
    GS p rep l (gsubN p rep l).1 := by
  induction l using gsubN.induct p rep with
  | case1 =>
    simp only [gsubN]
    exact GS.nil
  | case2 c cs k hsome ih =>
    simp only [gsubN, hsome]
    exact GS.sub hsome ih
  | case3 c cs hnone ih =>
    simp only [gsubN, hnone]
    exact GS.keep hnone ih

theorem fires_drop {p : List Tok} {l : List Char} (h : fires p l = false) (n : Nat) :
    fires p (l.drop n) = false := by
  induction l generalizing n with
  | nil => simpa using h
  | cons c cs ih =>
    rcases n with _ | n2
    · simpa using h
    · simp only [List.drop_succ_cons]
      simp only [fires, Bool.or_eq_false_iff] at h
      exact ih h.2 n2

theorem fires_append_left {p : List Tok} {a X : List Char}
    (h : ∀ t, t ∈ csufs a → feed p t = .fail) (hX : fires p X = false) :
    fires p (a ++ X) = false := by
  induction a with
  | nil => simpa using hX
  | cons c a2 ih =>
    simp only [List.cons_append, fires, Bool.or_eq_false_iff]
    refine ⟨?_, ?_⟩
    · have hfd : feed p (c :: a2) = .fail := h (c :: a2) (by simp [csufs])
      have happ := runTok_append p (c :: a2) X
      rw [hfd] at happ
      simp only [feedGlue] at happ
      rw [isSome_false_iff]
      simpa using happ
    · exact ih (fun t ht => h t (by simp [csufs, ht]))

end FixAny

end SiteGen

namespace SiteGen

namespace FixAny

theorem closed_lit {d : Char} {t : List Tok} (hm : (Tok.lit d :: t) ∈ STATES) :
    t ∈ STATES := by
  have hall := List.all_eq_true.mp closed_true _ hm
  simpa using hall

theorem closed_ws0 {t : List Tok} (hm : (Tok.ws0 :: t) ∈ STATES) : t ∈ STATES := by
  have hall := List.all_eq_true.mp closed_true _ hm
  simpa using hall

theorem closed_ws1 {t : List Tok} (hm : (Tok.ws1 :: t) ∈ STATES) :
    (Tok.ws0 :: t) ∈ STATES := by
  have hall := List.all_eq_true.mp closed_true _ hm
  simpa using hall

theorem closed_wordB {t : List Tok} (hm : (Tok.wordB :: t) ∈ STATES) : t ∈ STATES := by
  have hall := List.all_eq_true.mp closed_true _ hm
  simpa using hall

theorem trans_none {q : List Tok} {rep : List Char} {fc : Char} {q2 : List Tok}
    (hq : q = .lit fc :: q2)
    (hB : ∀ ts, ts ∈ STATES → feedB ts rep fc = true) :
    ∀ {m o : List Char}, GS q rep m o →
      ∀ ts, ts ∈ STATES → runTok ts m = none → runTok ts o = none := by
  intro m o hgs
  induction hgs with
  | nil =>
    intro ts _ h
    exact h
  | @keep c cs o2 hnone hgs2 ih =>
    intro ts
    induction ts with
    | nil =>
      intro _ h
      simp [runTok] at h
    | cons t ts2 iht =>
      intro hmem hnone2
      cases t with
      | lit d =>
        by_cases hc : c = d
        · subst hc
          have h1 : runTok (Tok.lit c :: ts2) (c :: cs) =
              (runTok ts2 cs).map (fun n => n + 1) := by
            simp [runTok]
          have h2 : runTok (Tok.lit c :: ts2) (c :: o2) =
              (runTok ts2 o2).map (fun n => n + 1) := by
            simp [runTok]
          rw [h1, Option.map_eq_none'] at hnone2
          rw [h2, Option.map_eq_none']
          exact ih ts2 (closed_lit hmem) hnone2
        · have hcc : ¬(c = d) := hc
          simp [runTok, hcc]
      | ws0 =>
        by_cases hw : isWS c = true
        · rw [runTok_ws0_cons_ws hw, Option.map_eq_none'] at hnone2
          rw [runTok_ws0_cons_ws hw, Option.map_eq_none']
          exact ih _ hmem hnone2
        · have hw2 : isWS c = false := by
            exact Bool.not_eq_true _ ▸ (by simpa using hw)
          rw [runTok_ws0_cons_nws hw2] at hnone2
          rw [runTok_ws0_cons_nws hw2]
          exact iht (closed_ws0 hmem) hnone2
      | ws1 =>
        by_cases hw : isWS c = true
        · rw [runTok_ws1_cons_ws hw, Option.map_eq_none'] at hnone2
          rw [runTok_ws1_cons_ws hw, Option.map_eq_none']
          exact ih _ (closed_ws1 hmem) hnone2
        · have hw2 : isWS c = false := by simpa using hw
          rw [runTok_ws1_cons_nws hw2]
      | wordB =>
        by_cases hw : isWord c = true
        · simp [runTok, hw]
        · have hw2 : ¬(isWord c = true) := hw
          have h1 : runTok (Tok.wordB :: ts2) (c :: cs) = runTok ts2 (c :: cs) := by
            simp [runTok, hw2]
          have h2 : runTok (Tok.wordB :: ts2) (c :: o2) = runTok ts2 (c :: o2) := by
            simp [runTok, hw2]
          rw [h1] at hnone2
          rw [h2]
          exact iht (closed_wordB hmem) hnone2
  | @sub c cs o2 k hsome hgs2 ih =>
    intro ts hts hn
    have happ := runTok_append ts rep o2
    have hfb := hB ts hts
    unfold feedB at hfb
    cases hfd : feed ts rep with
    | fail =>
      rw [happ, hfd]
      simp [feedGlue]
    | done k2 =>
      rw [hfd] at hfb
      cases hfd2 : feed ts [fc] with
      | fail =>
        rw [hfd2] at hfb
        simp at hfb
      | more t2 =>
        rw [hfd2] at hfb
        simp at hfb
      | done k3 =>
        have hcfc : c = fc := by
          rw [hq] at hsome
          by_cases hce : c = fc
          · exact hce
          · simp [runTok, hce] at hsome
        have h4 := runTok_append ts [fc] cs
        rw [hfd2] at h4
        simp only [feedGlue] at h4
        rw [hcfc] at hn
        rw [show [fc] ++ cs = fc :: cs by simp] at h4
        rw [h4] at hn
        cases hn
    | more ts2 =>
      rw [hfd] at hfb
      simp at hfb

end FixAny

end SiteGen

namespace SiteGen

namespace FixAny

theorem pair_facts {q : List Tok} {rep : List Char} (hmem : (q, rep) ∈ SUBS) :
    ∃ fc q2, q = .lit fc :: q2 ∧ q ∈ STATES ∧
      (∀ ts, ts ∈ STATES → feedB ts rep fc = true) ∧
      (∀ pr, pr ∈ SUBS → ∀ t, t ∈ csufs rep → feed pr.1 t = .fail) := by
  have hok : pairOK q rep = true := by
    have h2 := List.all_eq_true.mp subs_ok (q, rep) hmem
    simpa using h2
  cases q with
  | nil => simp [pairOK] at hok
  | cons t q2 =>
    cases t with
    | lit fc =>
      refine ⟨fc, q2, rfl, ?_⟩
      simp only [pairOK, Bool.and_eq_true, decide_eq_true_eq, List.all_eq_true] at hok
      obtain ⟨⟨h1, h2⟩, h3⟩ := hok
      refine ⟨h1, fun ts hts => h2 ts hts, fun pr hpr t ht => ?_⟩
      exact h3 pr hpr t ht
    | ws0 => simp [pairOK] at hok
    | ws1 => simp [pairOK] at hok
    | wordB => simp [pairOK] at hok

theorem fires_kill {q : List Tok} {rep : List Char} (hmem : (q, rep) ∈ SUBS)
    {m o : List Char} (hgs : GS q rep m o) : fires q o = false := by
  obtain ⟨fc, q2, hq, hqs, hB, hA⟩ := pair_facts hmem
  induction hgs with
  | nil =>
    rw [hq]
    simp [fires, runTok]
  | @keep c cs o2 hnone hgs2 ih =>
    simp only [fires, Bool.or_eq_false_iff]
    refine ⟨?_, ih⟩
    rw [isSome_false_iff]
    exact trans_none hq hB (GS.keep hnone hgs2) q hqs hnone
  | @sub c cs o2 k hsome hgs2 ih =>
    exact fires_append_left (fun t ht => hA (q, rep) hmem t ht) ih

theorem fires_pres {q p : List Tok} {rep prep : List Char}
    (hmem : (q, rep) ∈ SUBS) (hpmem : (p, prep) ∈ SUBS)
    {m o : List Char} (hgs : GS q rep m o) :
    fires p m = false → fires p o = false := by
  obtain ⟨fc, q2, hq, hqs, hB, hA⟩ := pair_facts hmem
  obtain ⟨fcp, p2, hp, hps, hBp, hAp⟩ := pair_facts hpmem
  induction hgs with
  | nil =>
    intro hf
    exact hf
  | @keep c cs o2 hnone hgs2 ih =>
    intro hf
    simp only [fires, Bool.or_eq_false_iff] at hf
    simp only [fires, Bool.or_eq_false_iff]
    refine ⟨?_, ih hf.2⟩
    rw [isSome_false_iff]
    refine trans_none hq hB (GS.keep hnone hgs2) p hps ?_
    rw [← isSome_false_iff]
    exact hf.1
  | @sub c cs o2 k hsome hgs2 ih =>
    intro hf
    simp only [fires, Bool.or_eq_false_iff] at hf
    exact fires_append_left (fun t ht => hA (p, prep) hpmem t ht) (ih (fires_drop hf.2 _))

theorem step_kill {q : List Tok} {rep : List Char} (hmem : (q, rep) ∈ SUBS) (x : List Char) :
    fires q (step x (q, rep)) = false := by
  unfold step
  by_cases hfx : fires q x = true
  · simp only [hfx, if_true]
    exact fires_kill hmem (gs_gsubN q rep x)
  · simp only [Bool.not_eq_true] at hfx
    simp [hfx]

theorem step_pres {q p : List Tok} {rep prep : List Char}
    (hqm : (q, rep) ∈ SUBS) (hpm : (p, prep) ∈ SUBS) (x : List Char)
    (hf : fires p x = false) : fires p (step x (q, rep)) = false := by
  unfold step
  by_cases hfx : fires q x = true
  · simp only [hfx, if_true]
    exact fires_pres hqm hpm (gs_gsubN q rep x) hf
  · simp only [Bool.not_eq_true] at hfx
    simp [hfx, hf]

theorem fix_content (todo : List (List Tok × List Char)) (x : List Char) (b : Bool) :
    (todo.foldl (fun acc (pr : List Tok × List Char) =>
      if fires pr.1 acc.1 then ((gsubN pr.1 pr.2 acc.1).1, true) else (acc.1, acc.2)) (x, b)).1 =
    todo.foldl step x := by
  induction todo generalizing x b with
  | nil => rfl
  | cons pr rest ih =>
    simp only [List.foldl_cons]
    by_cases hf : fires pr.1 x = true
    · simp only [hf, if_true, step, ih]
    · simp only [Bool.not_eq_true] at hf
      simp only [hf, Bool.false_eq_true, if_false, step, ih]

theorem pres_list (todo : List (List Tok × List Char))
    (htodo : ∀ pr ∈ todo, pr ∈ SUBS) {p : List Tok} {prep : List Char}
    (hpm : (p, prep) ∈ SUBS) (x : List Char) (hf : fires p x = false) :
    fires p (todo.foldl step x) = false := by
  induction todo generalizing x with
  | nil => exact hf
  | cons qr rest ih =>
    simp only [List.foldl_cons]
    refine ih (fun pr h => htodo pr (by simp [h])) _ ?_
    have hq : qr ∈ SUBS := htodo qr (by simp)
    obtain ⟨q, rep⟩ := qr
    exact step_pres hq hpm x hf

theorem kill_list (todo : List (List Tok × List Char))
    (htodo : ∀ pr ∈ todo, pr ∈ SUBS) (x : List Char) :
    ∀ pr ∈ todo, fires pr.1 (todo.foldl step x) = false := by
  induction todo generalizing x with
  | nil =>
    intro pr h
    cases h
  | cons qr rest ih =>
    intro pr hpr
    simp only [List.foldl_cons]
    rcases List.mem_cons.mp hpr with h1 | h2
    · subst h1
      obtain ⟨q, rep⟩ := pr
      have hq : (q, rep) ∈ SUBS := htodo _ (by simp)
      exact pres_list rest (fun pr2 h => htodo pr2 (by simp [h])) hq _ (step_kill hq x)
    · exact ih (fun pr2 h => htodo pr2 (by simp [h])) (step x qr) pr h2

theorem fold_nofire (todo : List (List Tok × List Char)) (x : List Char)
    (h : ∀ pr ∈ todo, fires pr.1 x = false) (b : Bool) :
    todo.foldl (fun acc (pr : List Tok × List Char) =>
      if fires pr.1 acc.1 then ((gsubN pr.1 pr.2 acc.1).1, true) else (acc.1, acc.2)) (x, b) =
    (x, b) := by
  induction todo with
  | nil => rfl
  | cons qr rest ih =>
    simp only [List.foldl_cons]
    have hq := h qr (by simp)
    rw [hq]
    simp only [Bool.false_eq_true, if_false]
    exact ih (fun pr hp => h pr (by simp [hp]))

theorem fix_any_types_idem (l : List Char) :
    fix_any_types (fix_any_types l).1 = ((fix_any_types l).1, false) := by
  have hcont : (fix_any_types l).1 = SUBS.foldl step l := fix_content SUBS l false
  have hfires : ∀ pr ∈ SUBS, fires pr.1 ((fix_any_types l).1) = false := by
    rw [hcont]
    exact kill_list SUBS (fun pr h => h) l
  unfold fix_any_types
  exact fold_nofire SUBS _ hfires false

end FixAny

end SiteGen

namespace SiteGen

namespace RX

theorem consume1_rest (c : Char) (r : List Char) (ms : MS) : (consume1 c r ms).rest = r := rfl

theorem consumeN_rest_suffix (t : CT) (k : Nat) (ms : MS) :
    (consumeN t k ms).rest <:+ ms.rest := by
  induction k generalizing ms with
  | zero => simp [consumeN]
  | succ k2 ih =>
    rcases hr : ms.rest with _ | ⟨c, r⟩
    · have h3 : consumeN t (k2 + 1) ms = ms := by simp [consumeN, hr]
      rw [h3, hr]
    · by_cases ht : t.test c = true
      · have h3 : consumeN t (k2 + 1) ms = consumeN t k2 (consume1 c r ms) := by
          simp [consumeN, hr, ht]
        rw [h3]
        have h2 := ih (consume1 c r ms)
        rw [consume1_rest] at h2
        exact h2.trans (List.suffix_cons c r)
      · have h3 : consumeN t (k2 + 1) ms = ms := by simp [consumeN, hr, ht]
        rw [h3, hr]

theorem singleton_occurs {c : Char} {l : List Char} : ([c] <:+: l) ↔ c ∈ l := by
  constructor
  · rintro ⟨s, t, rfl⟩
    simp
  · intro h
    obtain ⟨s, t, rfl⟩ := List.append_of_mem h
    exact ⟨s, t, by simp⟩

/-- A successful match of a token list containing a consecutive literal
run `L` at top level means `L` occurs contiguously in the input; when
the literal run starts the token list it is a prefix of the input. -/
theorem mat_lits_occurs :
    ∀ (toks : List Tok) (ms : MS), ∀ ms2, mat toks ms = some ms2 →
      ∀ (L : List Char) (u v : List Tok), toks = u ++ litsL L ++ v →
        ((u = [] → L <+: ms.rest) ∧ L <:+: ms.rest) := by
  intro toks ms
  refine mat.induct
    (fun toks ms => ∀ ms2, mat toks ms = some ms2 →
      ∀ (L : List Char) (u v : List Tok), toks = u ++ litsL L ++ v →
        ((u = [] → L <+: ms.rest) ∧ L <:+: ms.rest))
    (fun bs ts ms => ∀ ms2, altTry bs ts ms = some ms2 →
      ∀ (L : List Char) (u v : List Tok), ts = u ++ litsL L ++ v → L <:+: ms.rest)
    (fun t ts ms budget => ∀ ms2, lazyTry t ts ms budget = some ms2 →
      ∀ (L : List Char) (u v : List Tok), ts = u ++ litsL L ++ v → L <:+: ms.rest)
    (fun t ts ms k => ∀ ms2, starTry t ts ms k = some ms2 →
      ∀ (L : List Char) (u v : List Tok), ts = u ++ litsL L ++ v → L <:+: ms.rest)
    ?c1 ?c2 ?c3 ?c4 ?c5 ?c6 ?c7 ?c8 ?c9 ?c10 ?c11 ?c12 ?c13 ?c14 ?c15 ?c16 ?c17
    ?c18 ?c19 ?c20 ?c21 ?c22 ?c23 ?c24 ?c25 toks ms
  case c1 =>
    intro ms ms2 hm L u v hdec
    rcases L with _ | ⟨d, L2⟩
    · exact ⟨fun _ => List.nil_prefix, List.nil_infix⟩
    · exfalso
      rcases u with _ | ⟨t0, u2⟩ <;> simp [litsL] at hdec
  case c2 =>
    intro t ts ms hrest ms2 hm
    rw [mat.eq_def] at hm
    simp [hrest] at hm
  case c3 =>
    intro t ts ms c cs hrest htest ih ms2 hm L u v hdec
    rw [mat.eq_def] at hm
    simp only [hrest, htest, if_true] at hm
    rcases L with _ | ⟨d, L2⟩
    · exact ⟨fun _ => List.nil_prefix, List.nil_infix⟩
    rcases u with _ | ⟨t0, u2⟩
    · simp only [List.nil_append] at hdec
      simp [litsL] at hdec
      obtain ⟨hteq, hts⟩ := hdec
      rw [hteq] at htest
      have hc : c = d := by simpa [CT.test] using htest
      subst hc
      have h2 := (ih ms2 hm L2 [] v (by simpa [litsL] using hts)).1 rfl
      rw [consume1_rest] at h2
      have hpre : (c :: L2) <+: ms.rest := by
        rw [hrest]
        exact List.cons_prefix_cons.mpr ⟨rfl, h2⟩
      exact ⟨fun _ => hpre, hpre.isInfix⟩
    · simp only [List.cons_append, List.cons.injEq] at hdec
      obtain ⟨hteq, hts⟩ := hdec
      have h2 := (ih ms2 hm (d :: L2) u2 v hts).2
      rw [consume1_rest] at h2
      refine ⟨(fun hu => by cases hu), ?_⟩
      rw [hrest]
      exact h2.trans (List.suffix_cons c cs).isInfix
  case c4 =>
    intro t ts ms c cs hrest htest ms2 hm
    rw [mat.eq_def] at hm
    simp [hrest, htest] at hm
  case c5 =>
    intro t ts ms ih ms2 hm L u v hdec
    rw [mat.eq_def] at hm
    simp only [] at hm
    rcases L with _ | ⟨d, L2⟩
    · exact ⟨fun _ => List.nil_prefix, List.nil_infix⟩
    rcases u with _ | ⟨t0, u2⟩
    · exfalso
      simp [litsL] at hdec
    · simp only [List.cons_append, List.cons.injEq] at hdec
      obtain ⟨hteq, hts⟩ := hdec
      exact ⟨(fun hu => by cases hu), ih ms2 hm (d :: L2) u2 v hts⟩
  case c6 =>
    intro t ts ms ih ms2 hm L u v hdec
    rw [mat.eq_def] at hm
    simp only [] at hm
    rcases L with _ | ⟨d, L2⟩
    · exact ⟨fun _ => List.nil_prefix, List.nil_infix⟩
    rcases u with _ | ⟨t0, u2⟩
    · exfalso
      simp [litsL] at hdec
    · simp only [List.cons_append, List.cons.injEq] at hdec
      obtain ⟨hteq, hts⟩ := hdec
      exact ⟨(fun hu => by cases hu), ih ms2 hm (d :: L2) u2 v hts⟩
  case c7 =>
    intro t ts ms ih ms2 hm L u v hdec
    rw [mat.eq_def] at hm
    simp only [] at hm
    rcases L with _ | ⟨d, L2⟩
    · exact ⟨fun _ => List.nil_prefix, List.nil_infix⟩
    rcases u with _ | ⟨t0, u2⟩
    · exfalso
      simp [litsL] at hdec
    · simp only [List.cons_append, List.cons.injEq] at hdec
      obtain ⟨hteq, hts⟩ := hdec
      have h2 := ih ms2 hm (d :: L2) (Tok.one t :: Tok.star t :: u2) v (by simp [hts])
      exact ⟨(fun hu => by cases hu), h2.2⟩
  case c8 =>
    intro t ts ms r hsome ih ms2 hm L u v hdec
    rw [mat.eq_def] at hm
    simp only [hsome] at hm
    rcases L with _ | ⟨d, L2⟩
    · exact ⟨fun _ => List.nil_prefix, List.nil_infix⟩
    rcases u with _ | ⟨t0, u2⟩
    · exfalso
      simp [litsL] at hdec
    · simp only [List.cons_append, List.cons.injEq] at hdec
      obtain ⟨hteq, hts⟩ := hdec
      exact ⟨(fun hu => by cases hu), (ih r hsome (d :: L2) u2 v hts).2⟩
  case c9 =>
    intro t ts ms hnone hrest ih ms2 hm
    rw [mat.eq_def] at hm
    simp [hnone, hrest] at hm
  case c10 =>
    intro t ts ms hnone c cs hrest htest ih1 ih2 ms2 hm L u v hdec
    rw [mat.eq_def] at hm
    simp only [hnone, hrest, htest, if_true] at hm
    rcases L with _ | ⟨d, L2⟩
    · exact ⟨fun _ => List.nil_prefix, List.nil_infix⟩
    rcases u with _ | ⟨t0, u2⟩
    · exfalso
      simp [litsL] at hdec
    · simp only [List.cons_append, List.cons.injEq] at hdec
      obtain ⟨hteq, hts⟩ := hdec
      have h2 := (ih2 ms2 hm (d :: L2) u2 v hts).2
      rw [consume1_rest] at h2
      refine ⟨(fun hu => by cases hu), ?_⟩
      rw [hrest]
      exact h2.trans (List.suffix_cons c cs).isInfix
  case c11 =>
    intro t ts ms hnone c cs hrest htest ih ms2 hm
    rw [mat.eq_def] at hm
    simp [hnone, hrest, htest] at hm
  case c12 =>
    intro bs ts ms ih ms2 hm L u v hdec
    rw [mat.eq_def] at hm
    simp only [] at hm
    rcases L with _ | ⟨d, L2⟩
    · exact ⟨fun _ => List.nil_prefix, List.nil_infix⟩
    rcases u with _ | ⟨t0, u2⟩
    · exfalso
      simp [litsL] at hdec
    · simp only [List.cons_append, List.cons.injEq] at hdec
      obtain ⟨hteq, hts⟩ := hdec
      exact ⟨(fun hu => by cases hu), ih ms2 hm (d :: L2) u2 v hts⟩
  case c13 =>
    intro n ts ms ih ms2 hm L u v hdec
    rw [mat.eq_def] at hm
    simp only [] at hm
    rcases L with _ | ⟨d, L2⟩
    · exact ⟨fun _ => List.nil_prefix, List.nil_infix⟩
    rcases u with _ | ⟨t0, u2⟩
    · exfalso
      simp [litsL] at hdec
    · simp only [List.cons_append, List.cons.injEq] at hdec
      obtain ⟨hteq, hts⟩ := hdec
      exact ⟨(fun hu => by cases hu), (ih ms2 hm (d :: L2) u2 v hts).2⟩
  case c14 =>
    intro n ts ms hopen ms2 hm
    rw [mat.eq_def] at hm
    simp [hopen] at hm
  case c15 =>
    intro n ts ms g gs hopen ih ms2 hm L u v hdec
    rw [mat.eq_def] at hm
    simp only [hopen] at hm
    rcases L with _ | ⟨d, L2⟩
    · exact ⟨fun _ => List.nil_prefix, List.nil_infix⟩
    rcases u with _ | ⟨t0, u2⟩
    · exfalso
      simp [litsL] at hdec
    · simp only [List.cons_append, List.cons.injEq] at hdec
      obtain ⟨hteq, hts⟩ := hdec
      exact ⟨(fun hu => by cases hu), (ih ms2 hm (d :: L2) u2 v hts).2⟩
  case c16 =>
    intro ts ms ms2 hm
    rw [altTry.eq_def] at hm
    simp at hm
  case c17 =>
    intro ts ms b bs r hsome ih ms2 hm L u v hdec
    exact (ih r hsome L (b ++ u) v (by simp [hdec])).2
  case c18 =>
    intro ts ms b bs hnone ih1 ih2 ms2 hm L u v hdec
    rw [altTry.eq_def] at hm
    simp only [hnone] at hm
    exact ih2 ms2 hm L u v hdec
  case c19 =>
    intro t ts ms budget r hsome ih ms2 hm L u v hdec
    exact (ih r hsome L u v hdec).2
  case c20 =>
    intro t ts ms hnone b c r hrest htest ih1 ih2 ms2 hm L u v hdec
    rw [lazyTry.eq_1 t ts ms b c r hrest] at hm
    simp only [hnone, htest, if_true] at hm
    have h2 := ih2 ms2 hm L u v hdec
    rw [consume1_rest] at h2
    rw [hrest]
    exact h2.trans (List.suffix_cons c r).isInfix
  case c21 =>
    intro t ts ms hnone b c r hrest htest ih ms2 hm
    rw [lazyTry.eq_1 t ts ms b c r hrest] at hm
    simp [hnone, htest] at hm
  case c22 =>
    intro t ts ms budget hnone hstuck ih ms2 hm
    rw [lazyTry.eq_2 t ts ms budget hstuck] at hm
    simp [hnone] at hm
  case c23 =>
    intro t ts ms k r hsome ih ms2 hm L u v hdec
    have h2 := (ih r hsome L u v hdec).2
    exact h2.trans (consumeN_rest_suffix t k ms).isInfix
  case c24 =>
    intro t ts ms hnone ih ms2 hm
    rw [starTry.eq_1] at hm
    simp [hnone] at hm
  case c25 =>
    intro t ts ms k hnone ih1 ih2 ms2 hm L u v hdec
    rw [starTry.eq_2] at hm
    simp only [hnone] at hm
    exact ih2 ms2 hm L u v hdec

end RX

end SiteGen

namespace SiteGen

namespace RX

theorem starTry_of_some {t : CT} {ts : List Tok} {ms : MS} {k : Nat} {r : MS}
    (h : mat ts (consumeN t k ms) = some r) : starTry t ts ms k = some r := by
  cases k with
  | zero => rw [starTry.eq_1, h]
  | succ k2 => rw [starTry.eq_2, h]

theorem countC_word_app (w : List Char) (c : Char) (r : List Char)
    (hw : ∀ d ∈ w, isWord d = true) (hc : isWord c = false) :
    countC .wd (w ++ c :: r) = w.length := by
  induction w with
  | nil => simp [countC, CT.test, hc]
  | cons w0 w1 ih =>
    have h0 : isWord w0 = true := hw w0 (by simp)
    simp [countC, CT.test, h0, ih (fun d hd => hw d (by simp [hd]))]

theorem consumeN_word (w s : List Char) (og : List (Nat × List Char))
    (cp : List (Nat × List Char)) (hw : ∀ d ∈ w, isWord d = true) :
    consumeN .wd w.length ⟨w ++ s, og, cp⟩ =
      ⟨s, og.map (fun g => (g.1, w.reverse ++ g.2)), cp⟩ := by
  induction w generalizing og with
  | nil => simp [consumeN]
  | cons w0 w1 ih =>
    have h0 : isWord w0 = true := hw w0 (by simp)
    have h1 : consumeN .wd (w0 :: w1).length ⟨(w0 :: w1) ++ s, og, cp⟩ =
        consumeN .wd w1.length ⟨w1 ++ s, og.map (fun g => (g.1, w0 :: g.2)), cp⟩ := by
      simp [consumeN, CT.test, h0, consume1]
    rw [h1, ih _ (fun d hd => hw d (by simp [hd]))]
    simp [List.map_map, Function.comp_def, List.append_assoc]

end RX

end SiteGen

namespace SiteGen

namespace RX

theorem mat_tail7 (rev : List Char) (cp : List (Nat × List Char)) :
    mat ([.grpC 1, .optL (.lit '?'), .one (.lit ':'), .star .wsc] ++ lits "any;")
      ⟨": any;".toList, [(1, rev)], cp⟩ = some ⟨[], [], cp ++ [(1, rev.reverse)]⟩ := by
  simp [mat.eq_def, CT.test, countC, consume1, consumeN, isWS, lits,
    starTry.eq_1, starTry.eq_2]

end RX

end SiteGen

namespace SiteGen

namespace RX

theorem matchAt_p7 (w : List Char) (hne : w ≠ []) (hw : ∀ d ∈ w, isWord d = true) :
    matchAt ([.grpO 1, .plus .wd, .grpC 1, .optL (.lit '?'), .one (.lit ':'),
        .star .wsc] ++ lits "any;")
      (w ++ ": any;".toList) = some (w.length + 6, [(1, w)]) := by
  rcases w with _ | ⟨w0, w1⟩
  · cases hne rfl
  have h0 : isWord w0 = true := hw w0 (by simp)
  have hw1 : ∀ d ∈ w1, isWord d = true := fun d hd => hw d (by simp [hd])
  have h1 : mat ([.grpO 1, .plus .wd, .grpC 1, .optL (.lit '?'), .one (.lit ':'),
        .star .wsc] ++ lits "any;")
      ⟨(w0 :: w1) ++ ": any;".toList, [], []⟩ =
      mat ([.star .wd, .grpC 1, .optL (.lit '?'), .one (.lit ':'),
        .star .wsc] ++ lits "any;")
      ⟨w1 ++ ": any;".toList, [(1, [w0])], []⟩ := by
    simp [mat.eq_def, CT.test, h0, consume1]
  have hcount : countC .wd (w1 ++ [':', ' ', 'a', 'n', 'y', ';']) = w1.length :=
    countC_word_app w1 ':' _ hw1 (by decide)
  have h2 : mat ([.star .wd, .grpC 1, .optL (.lit '?'), .one (.lit ':'),
        .star .wsc] ++ lits "any;")
      ⟨w1 ++ ": any;".toList, [(1, [w0])], []⟩ =
      starTry .wd ([.grpC 1, .optL (.lit '?'), .one (.lit ':'),
        .star .wsc] ++ lits "any;") ⟨w1 ++ ": any;".toList, [(1, [w0])], []⟩ w1.length := by
    rw [mat.eq_def]
    simp [hcount]

  have h3 : consumeN .wd w1.length ⟨w1 ++ ": any;".toList, [(1, [w0])], []⟩ =
      ⟨": any;".toList, [(1, w1.reverse ++ [w0])], []⟩ := by
    rw [consumeN_word w1 _ _ _ hw1]
    simp
  have h4 := mat_tail7 (w1.reverse ++ [w0]) []
  have h5 : starTry .wd ([.grpC 1, .optL (.lit '?'), .one (.lit ':'),
        .star .wsc] ++ lits "any;") ⟨w1 ++ ": any;".toList, [(1, [w0])], []⟩ w1.length =
      some ⟨[], [], [(1, w0 :: w1)]⟩ := by
    refine starTry_of_some ?_
    rw [h3, h4]
    simp
  unfold matchAt
  rw [h1, h2, h5]
  simp

end RX

end SiteGen

namespace SiteGen

namespace RX

theorem gsub_eq_id (pat : List Tok) (tpl : List RI) :
    ∀ l : List Char, (∀ s, s <:+ l → matchAt pat s = none) → gsub pat tpl l = (l, 0) := by
  intro l
  induction l with
  | nil => intro h; rw [gsub.eq_def]
  | cons c rest ih =>
    intro h
    rw [gsub.eq_def]
    simp only [h (c :: rest) (List.suffix_refl _)]
    rw [ih (fun s hs => h s (hs.trans (List.suffix_cons c rest)))]

theorem matchAt_none_of_not_occurs (pat : List Tok) (u : List Tok) (L : List Char)
    (v : List Tok) (hpat : pat = u ++ litsL L ++ v) (s : List Char)
    (hL : ¬ (L <:+: s)) : matchAt pat s = none := by
  unfold matchAt
  cases hm : mat pat ⟨s, [], []⟩ with
  | none => rfl
  | some ms2 =>
    exact absurd (mat_lits_occurs pat ⟨s, [], []⟩ ms2 hm L u v hpat).2 hL

theorem gsub_of_not_occurs (pat : List Tok) (tpl : List RI) (u : List Tok)
    (L : List Char) (v : List Tok) (hpat : pat = u ++ litsL L ++ v)
    (l : List Char) (hL : ¬ (L <:+: l)) : gsub pat tpl l = (l, 0) := by
  refine gsub_eq_id pat tpl l (fun s hs => ?_)
  refine matchAt_none_of_not_occurs pat u L v hpat s (fun hi => hL ?_)
  exact hi.trans hs.isInfix

theorem occurs_append_split {L a b : List Char} (h : L <:+: a ++ b) :
    L <:+: a ∨ L <:+: b ∨
      ∃ l1 l2, L = l1 ++ l2 ∧ l1 ≠ [] ∧ l2 ≠ [] ∧ l1 <:+ a ∧ l2 <+: b := by
  obtain ⟨s, t, hst⟩ := h
  have hst2 : s ++ (L ++ t) = a ++ b := by
    rw [← hst]; simp [List.append_assoc]
  rcases List.append_eq_append_iff.mp hst2 with ⟨a2, ha, hb⟩ | ⟨c2, hs2, hb⟩
  · rcases List.append_eq_append_iff.mp hb with ⟨x, hx, ht⟩ | ⟨y, hy, hb2⟩
    · left
      refine ⟨s, x, ?_⟩
      rw [ha, hx]
      simp [List.append_assoc]
    · rcases eq_or_ne a2 [] with h2 | h2
      · right; left
        subst h2
        simp only [List.nil_append] at hy
        refine ⟨[], t, ?_⟩
        rw [hy, hb2]
        simp
      · rcases eq_or_ne y [] with h3 | h3
        · left
          subst h3
          refine ⟨s, [], ?_⟩
          rw [hy, List.append_nil, ha]
          simp
        · right; right
          exact ⟨a2, y, hy, h2, h3, ⟨s, ha.symm⟩, ⟨t, hb2.symm⟩⟩
  · right; left
    exact ⟨c2, t, by rw [hb, List.append_assoc]⟩

end RX

end SiteGen

namespace SiteGen
namespace RX
theorem gsub_p7 (w : List Char) (hne : w ≠ []) (hw : ∀ d ∈ w, isWord d = true) :
    gsub ([.grpO 1, .plus .wd, .grpC 1, .optL (.lit '?'), .one (.lit ':'),
        .star .wsc] ++ lits "any;") [.ref 1, .txt "?: unknown;".toList]
      (w ++ ": any;".toList) = (w ++ "?: unknown;".toList, 1) := by
  rcases w with _ | ⟨w0, w1⟩
  · cases hne rfl
  have hmA := matchAt_p7 (w0 :: w1) hne hw
  rw [List.cons_append]
  rw [gsub.eq_def]
  rw [List.cons_append] at hmA
  simp only [List.cons_append] at hmA ⊢
  simp only [hmA]
  have hdrop : List.drop ((w0 :: w1).length + 6 - 1) (w1 ++ ": any;".toList) = [] := by
    apply List.drop_eq_nil_of_le
    simp
  rw [hdrop, if_pos (by simp : 1 ≤ (w0 :: w1).length + 6)]
  rw [gsub.eq_def]
  simp [splice]
end RX
end SiteGen

namespace SiteGen

namespace RX

theorem notmem_word_app {c : Char} {w s : List Char}
    (hw : ∀ d ∈ w, isWord d = true) (hcw : isWord c = false) (hcs : c ∉ s) :
    c ∉ w ++ s := by
  intro h
  rcases List.mem_append.mp h with h1 | h1
  · rw [hw c h1] at hcw
    cases hcw
  · exact hcs h1

theorem char_not_occurs_app {c : Char} {w s : List Char}
    (hw : ∀ d ∈ w, isWord d = true) (hcw : isWord c = false) (hcs : c ∉ s) :
    ¬ ([c] <:+: w ++ s) :=
  fun hi => notmem_word_app hw hcw hcs (singleton_occurs.mp hi)

theorem any_not_occurs_out (w : List Char) (hany : ¬ ("any".toList <:+: w)) :
    ¬ ("any".toList <:+: w ++ "?: unknown;".toList) := by
  intro h
  rcases occurs_append_split h with h1 | h1 | ⟨l1, l2, hL, hne1, hne2, hsuf, hpre⟩
  · exact hany h1
  · exact absurd h1 (by decide)
  · rcases l2 with _ | ⟨d, l2t⟩
    · exact hne2 rfl
    · have hd : d ∈ "any".toList := by
        rw [hL]
        exact List.mem_append_right _ (by simp)
      have hb : ("?: unknown;".toList : List Char) = '?' :: ": unknown;".toList := by decide
      rw [hb] at hpre
      have hq : d = '?' := (List.cons_prefix_cons.mp hpre).1
      rw [hq] at hd
      exact absurd hd (by decide)

end RX

end SiteGen

namespace SiteGen

namespace EslintAny

open RX

/-- C10: a required property declaration `name: any;` is rewritten by
`fix_no_explicit_any` to the optional `name?: unknown;`, with exactly one
replacement counted. -/
theorem claim_C10 (w : List Char) (hne : w ≠ []) (hw : ∀ d ∈ w, isWord d = true)
    (hany : ¬ ("any".toList <:+: w)) :
    fix_no_explicit_any (w ++ ": any;".toList) = (w ++ "?: unknown;".toList, 1) := by
  have hparI : ¬ (['('] <:+: w ++ ": any;".toList) :=
    char_not_occurs_app hw (by decide) (by decide)
  have hcloI : ¬ ([')'] <:+: w ++ ": any;".toList) :=
    char_not_occurs_app hw (by decide) (by decide)
  have heqI : ¬ (['='] <:+: w ++ ": any;".toList) :=
    char_not_occurs_app hw (by decide) (by decide)
  have hlbO : ¬ (['['] <:+: w ++ "?: unknown;".toList) :=
    char_not_occurs_app hw (by decide) (by decide)
  have hltO : ¬ (['<'] <:+: w ++ "?: unknown;".toList) :=
    char_not_occurs_app hw (by decide) (by decide)
  have hcoO : ¬ ([','] <:+: w ++ "?: unknown;".toList) :=
    char_not_occurs_app hw (by decide) (by decide)
  have hanyO := any_not_occurs_out w hany
  have e1 : gsub ([.one (.lit '(')] ++ wplus ++ [.star .wsc, .one (.lit ':'), .star .wsc] ++ lits "any" ++ [.one (.lit ')')])
      [.txt "(".toList, .ref 1, .txt ": unknown)".toList] (w ++ ": any;".toList) =
      (w ++ ": any;".toList, 0) :=
    gsub_of_not_occurs _ _ [] ['(']
      (wplus ++ [.star .wsc, .one (.lit ':'), .star .wsc] ++ lits "any" ++ [.one (.lit ')')])
      rfl _ hparI
  have e2 : gsub ([.one (.lit '(')] ++ wplus ++ [.star .wsc, .one (.lit ':'), .star .wsc] ++ lits "any[])")
      [.txt "(".toList, .ref 1, .txt ": unknown[])".toList] (w ++ ": any;".toList) =
      (w ++ ": any;".toList, 0) :=
    gsub_of_not_occurs _ _ [] ['(']
      (wplus ++ [.star .wsc, .one (.lit ':'), .star .wsc] ++ lits "any[])")
      rfl _ hparI
  have e3 : gsub ([.one (.lit ')'), .star .wsc, .one (.lit ':'), .star .wsc] ++ lits "any" ++ [.star .wsc, .one (.lit '{')])
      [.txt "): unknown \x7b".toList] (w ++ ": any;".toList) = (w ++ ": any;".toList, 0) :=
    gsub_of_not_occurs _ _ [] [')']
      ([.star .wsc, .one (.lit ':'), .star .wsc] ++ lits "any" ++ [.star .wsc, .one (.lit '{')])
      rfl _ hcloI
  have e4 : gsub ([.one (.lit ')'), .star .wsc, .one (.lit ':'), .star .wsc] ++ lits "any[]" ++ [.star .wsc, .one (.lit '{')])
      [.txt "): unknown[] \x7b".toList] (w ++ ": any;".toList) = (w ++ ": any;".toList, 0) :=
    gsub_of_not_occurs _ _ [] [')']
      ([.star .wsc, .one (.lit ':'), .star .wsc] ++ lits "any[]" ++ [.star .wsc, .one (.lit '{')])
      rfl _ hcloI
  have e5 : gsub ([.grpO 1, .alt [lits "const", lits "let", lits "var"], .grpC 1, .plus .wsc,
      .grpO 2, .plus .wd, .grpC 2, .star .wsc, .one (.lit ':'), .star .wsc] ++ lits "any" ++ [.star .wsc, .one (.lit '=')])
      [.ref 1, .txt " ".toList, .ref 2, .txt ": unknown =".toList] (w ++ ": any;".toList) =
      (w ++ ": any;".toList, 0) :=
    gsub_of_not_occurs _ _
      ([.grpO 1, .alt [lits "const", lits "let", lits "var"], .grpC 1, .plus .wsc,
        .grpO 2, .plus .wd, .grpC 2, .star .wsc, .one (.lit ':'), .star .wsc] ++ lits "any" ++ [.star .wsc])
      ['='] [] rfl _ heqI
  have e6 : gsub ([.grpO 1, .alt [lits "const", lits "let", lits "var"], .grpC 1, .plus .wsc,
      .grpO 2, .plus .wd, .grpC 2, .star .wsc, .one (.lit ':'), .star .wsc] ++ lits "any[]" ++ [.star .wsc, .one (.lit '=')])
      [.ref 1, .txt " ".toList, .ref 2, .txt ": unknown[] =".toList] (w ++ ": any;".toList) =
      (w ++ ": any;".toList, 0) :=
    gsub_of_not_occurs _ _
      ([.grpO 1, .alt [lits "const", lits "let", lits "var"], .grpC 1, .plus .wsc,
        .grpO 2, .plus .wd, .grpC 2, .star .wsc, .one (.lit ':'), .star .wsc] ++ lits "any[]" ++ [.star .wsc])
      ['='] [] rfl _ heqI
  have e7 : gsub (wplus ++ [.optL (.lit '?'), .one (.lit ':'), .star .wsc] ++ lits "any;")
      [.ref 1, .txt "?: unknown;".toList] (w ++ ": any;".toList) =
      (w ++ "?: unknown;".toList, 1) := gsub_p7 w hne hw
  have e8 : gsub (wplus ++ [.optL (.lit '?'), .one (.lit ':'), .star .wsc] ++ lits "any[];")
      [.ref 1, .txt "?: unknown[];".toList] (w ++ "?: unknown;".toList) =
      (w ++ "?: unknown;".toList, 0) :=
    gsub_of_not_occurs _ _
      (wplus ++ [.optL (.lit '?'), .one (.lit ':'), .star .wsc] ++ lits "any") ['['] (lits "];")
      rfl _ hlbO
  have e9 : gsub (lits "<any>") [.txt "<unknown>".toList] (w ++ "?: unknown;".toList) =
      (w ++ "?: unknown;".toList, 0) :=
    gsub_of_not_occurs _ _ [] ['<'] (lits "any>") rfl _ hltO
  have e10 : gsub (lits "<any[]>") [.txt "<unknown[]>".toList] (w ++ "?: unknown;".toList) =
      (w ++ "?: unknown;".toList, 0) :=
    gsub_of_not_occurs _ _ [] ['<'] (lits "any[]>") rfl _ hltO
  have e11 : gsub (lits "Record<string," ++ [.star .wsc] ++ lits "any>")
      [.txt "Record<string, unknown>".toList] (w ++ "?: unknown;".toList) =
      (w ++ "?: unknown;".toList, 0) :=
    gsub_of_not_occurs _ _ (lits "Record") ['<'] (lits "string," ++ [.star .wsc] ++ lits "any>")
      rfl _ hltO
  have e12 : gsub (lits "Record<number," ++ [.star .wsc] ++ lits "any>")
      [.txt "Record<number, unknown>".toList] (w ++ "?: unknown;".toList) =
      (w ++ "?: unknown;".toList, 0) :=
    gsub_of_not_occurs _ _ (lits "Record") ['<'] (lits "number," ++ [.star .wsc] ++ lits "any>")
      rfl _ hltO
  have e13 : gsub ([.grpO 1, .plus .wd, .optL (.lit '?'), .one (.lit ':'), .star .wsc, .grpC 1] ++ lits "any" ++
      [.grpO 2, .star .wsc, .one (.lit ','), .grpC 2])
      [.ref 1, .txt "unknown".toList, .ref 2] (w ++ "?: unknown;".toList) =
      (w ++ "?: unknown;".toList, 0) :=
    gsub_of_not_occurs _ _
      ([.grpO 1, .plus .wd, .optL (.lit '?'), .one (.lit ':'), .star .wsc, .grpC 1] ++ lits "any" ++
        [.grpO 2, .star .wsc])
      [','] [.grpC 2] rfl _ hcoO
  have e14 : gsub (lits "context" ++ [.optL (.lit '?'), .one (.lit ':'), .star .wsc] ++ lits "any")
      [.txt "context?: Record<string, unknown>".toList] (w ++ "?: unknown;".toList) =
      (w ++ "?: unknown;".toList, 0) :=
    gsub_of_not_occurs _ _ (lits "context" ++ [.optL (.lit '?'), .one (.lit ':'), .star .wsc])
      "any".toList [] rfl _ hanyO
  have e15 : gsub (lits "options" ++ [.optL (.lit '?'), .one (.lit ':'), .star .wsc] ++ lits "any")
      [.txt "options?: Record<string, unknown>".toList] (w ++ "?: unknown;".toList) =
      (w ++ "?: unknown;".toList, 0) :=
    gsub_of_not_occurs _ _ (lits "options" ++ [.optL (.lit '?'), .one (.lit ':'), .star .wsc])
      "any".toList [] rfl _ hanyO
  have e16 : gsub (lits "data" ++ [.optL (.lit '?'), .one (.lit ':'), .star .wsc] ++ lits "any")
      [.txt "data?: Record<string, unknown>".toList] (w ++ "?: unknown;".toList) =
      (w ++ "?: unknown;".toList, 0) :=
    gsub_of_not_occurs _ _ (lits "data" ++ [.optL (.lit '?'), .one (.lit ':'), .star .wsc])
      "any".toList [] rfl _ hanyO
  have e17 : gsub (lits "hash" ++ [.optL (.lit '?'), .one (.lit ':'), .star .wsc] ++ lits "any")
      [.txt "hash?: Record<string, unknown>".toList] (w ++ "?: unknown;".toList) =
      (w ++ "?: unknown;".toList, 0) :=
    gsub_of_not_occurs _ _ (lits "hash" ++ [.optL (.lit '?'), .one (.lit ':'), .star .wsc])
      "any".toList [] rfl _ hanyO
  simp only [fix_no_explicit_any, patterns, List.foldl_cons, List.foldl_nil,
    e1, e2, e3, e4, e5, e6, e7, e8, e9, e10, e11, e12, e13, e14, e15, e16, e17,
    Nat.add_zero, Nat.zero_add]

end EslintAny

end SiteGen

namespace SiteGen

theorem claim_C10_witness :
    EslintAny.fix_no_explicit_any ("x".toList ++ ": any;".toList) =
      ("x".toList ++ "?: unknown;".toList, 1) :=
  EslintAny.claim_C10 "x".toList (by decide) (by decide) (by decide)

end SiteGen

namespace SiteGen

namespace RX

theorem lazyTry_of_some {t : CT} {ts : List Tok} {ms : MS} {budget : Nat} {r : MS}
    (h : mat ts ms = some r) : lazyTry t ts ms budget = some r := by
  rcases budget with _ | b
  · rw [lazyTry.eq_2 t ts ms 0 (fun b2 c r2 h1 h2 => by cases h1), h]
  · rcases hr : ms.rest with _ | ⟨c, r2⟩
    · rw [lazyTry.eq_2 t ts ms (b + 1) (fun b2 c r2 h1 h2 => by rw [hr] at h2; cases h2), h]
    · rw [lazyTry.eq_1 t ts ms b c r2 hr, h]

theorem engF_sound : ∀ f : Nat,
    (∀ toks ms r, matF f toks ms = some r → mat toks ms = r) ∧
    (∀ t ts ms k r, starF f t ts ms k = some r → starTry t ts ms k = r) ∧
    (∀ t ts ms b r, lazyF f t ts ms b = some r → lazyTry t ts ms b = r) ∧
    (∀ bs ts ms r, altF f bs ts ms = some r → altTry bs ts ms = r) := by
  intro f
  induction f with
  | zero =>
    refine ⟨fun toks ms r h => ?_, fun t ts ms k r h => ?_,
      fun t ts ms b r h => ?_, fun bs ts ms r h => ?_⟩ <;>
      simp [matF, starF, lazyF, altF] at h
  | succ f ih =>
    obtain ⟨ihm, ihs, ihl, iha⟩ := ih
    refine ⟨fun toks ms r h => ?_, fun t ts ms k r h => ?_,
      fun t ts ms b r h => ?_, fun bs ts ms r h => ?_⟩
    · -- matF
      cases toks with
      | nil =>
        simp only [matF, Option.some.injEq] at h
        rw [mat.eq_def, ← h]
      | cons tok ts =>
        cases tok with
        | one t =>
          simp only [matF] at h
          rcases hr : ms.rest with _ | ⟨c, r2⟩ <;> simp only [hr] at h
          · simp only [Option.some.injEq] at h
            rw [mat.eq_def]
            simp [hr, ← h]
          · by_cases ht : t.test c = true
            · rw [if_pos ht] at h
              rw [mat.eq_def]
              simp only [hr, ht, if_true]
              exact ihm _ _ _ h
            · rw [if_neg ht] at h
              simp only [Option.some.injEq] at h
              rw [mat.eq_def]
              simp [hr, ht, ← h]
        | star t =>
          simp only [matF] at h
          rw [mat.eq_def]
          exact ihs _ _ _ _ _ h
        | starL t =>
          simp only [matF] at h
          rw [mat.eq_def]
          exact ihl _ _ _ _ _ h
        | plus t =>
          simp only [matF] at h
          rw [mat.eq_def]
          exact ihm _ _ _ h
        | optL t =>
          simp only [matF] at h
          rcases hm : matF f ts ms with _ | ⟨_ | r2⟩ <;> simp only [hm] at h
          · cases h
          · have hmm := ihm _ _ _ hm
            rcases hr : ms.rest with _ | ⟨c, r2⟩ <;> simp only [hr] at h
            · simp only [Option.some.injEq] at h
              rw [mat.eq_def]
              simp [hmm, hr, ← h]
            · by_cases ht : t.test c = true
              · rw [if_pos ht] at h
                have h2 := ihm _ _ _ h
                rw [mat.eq_def]
                simp [hmm, hr, ht, h2]
              · rw [if_neg ht] at h
                simp only [Option.some.injEq] at h
                rw [mat.eq_def]
                simp [hmm, hr, ht, ← h]
          · simp only [Option.some.injEq] at h
            have hmm := ihm _ _ _ hm
            rw [mat.eq_def]
            simp [hmm, ← h]
        | alt bs =>
          simp only [matF] at h
          rw [mat.eq_def]
          exact iha _ _ _ _ h
        | grpO n =>
          simp only [matF] at h
          rw [mat.eq_def]
          exact ihm _ _ _ h
        | grpC n =>
          simp only [matF] at h
          rcases hg : ms.openG with _ | ⟨g, gs⟩ <;> rw [hg] at h
          · simp only [Option.some.injEq] at h
            rw [mat.eq_def]
            simp [hg, ← h]
          · rw [mat.eq_def]
            simp only [hg]
            exact ihm _ _ _ h
    · -- starF
      simp only [starF] at h
      rcases hm : matF f ts (consumeN t k ms) with _ | ⟨_ | r2⟩ <;> simp only [hm] at h
      · cases h
      · have hmm := ihm _ _ _ hm
        rcases k with _ | k2
        · simp only [Option.some.injEq] at h
          rw [starTry.eq_1]
          simp [hmm, ← h]
        · have h2 := ihs _ _ _ _ _ h
          rw [starTry.eq_2]
          simp [hmm, h2]
      · simp only [Option.some.injEq] at h
        have hmm := ihm _ _ _ hm
        rw [← h]
        exact starTry_of_some hmm
    · -- lazyF
      simp only [lazyF] at h
      rcases hm : matF f ts ms with _ | ⟨_ | r2⟩ <;> simp only [hm] at h
      · cases h
      · have hmm := ihm _ _ _ hm
        rcases b with _ | b2
        · simp only [Option.some.injEq] at h
          rw [lazyTry.eq_2 t ts ms 0 (fun b2 c r2 h1 h2 => by cases h1), hmm, ← h]
        · rcases hr : ms.rest with _ | ⟨c, r2⟩
          · simp only [hr] at h
            simp only [Option.some.injEq] at h
            rw [lazyTry.eq_2 t ts ms (b2 + 1)
              (fun b3 c r3 h1 h2 => by rw [hr] at h2; cases h2), hmm, ← h]
          · simp only [hr] at h
            by_cases ht : t.test c = true
            · rw [if_pos ht] at h
              have h2 := ihl _ _ _ _ _ h
              rw [lazyTry.eq_1 t ts ms b2 c r2 hr, hmm]
              simp [ht, h2]
            · rw [if_neg ht] at h
              simp only [Option.some.injEq] at h
              rw [lazyTry.eq_1 t ts ms b2 c r2 hr, hmm]
              simp [ht, ← h]
      · simp only [Option.some.injEq] at h
        have hmm := ihm _ _ _ hm
        rw [← h]
        exact lazyTry_of_some hmm
    · -- altF
      cases bs with
      | nil =>
        simp only [altF, Option.some.injEq] at h
        rw [altTry.eq_def, ← h]
      | cons b2 rest =>
        simp only [altF] at h
        rcases hm : matF f (b2 ++ ts) ms with _ | ⟨_ | r2⟩ <;> simp only [hm] at h
        · cases h
        · have hmm := ihm _ _ _ hm
          have h2 := iha _ _ _ _ h
          rw [altTry.eq_def]
          simp [hmm, h2]
        · simp only [Option.some.injEq] at h
          have hmm := ihm _ _ _ hm
          rw [altTry.eq_def]
          simp [hmm, ← h]

theorem matF_sound (f : Nat) (toks : List Tok) (ms : MS) (r : Option MS)
    (h : matF f toks ms = some r) : mat toks ms = r := (engF_sound f).1 _ _ _ h

theorem gsubF_sound : ∀ (f : Nat) (pat : List Tok) (tpl : List RI) (l : List Char)
    (r : List Char × Nat), gsubF f pat tpl l = some r → gsub pat tpl l = r := by
  intro f
  induction f with
  | zero => intro pat tpl l r h; simp [gsubF] at h
  | succ f ih =>
    intro pat tpl l r h
    cases l with
    | nil =>
      simp only [gsubF, Option.some.injEq] at h
      rw [gsub.eq_def, ← h]
    | cons c rest =>
      simp only [gsubF] at h
      rcases hm : matF f pat ⟨c :: rest, [], []⟩ with _ | ⟨_ | ms⟩ <;> simp only [hm] at h
      · cases h
      · have hmm := matF_sound _ _ _ _ hm
        have hma : matchAt pat (c :: rest) = none := by
          unfold matchAt
          rw [hmm]
        rcases hg : gsubF f pat tpl rest with _ | r2 <;> simp only [hg] at h
        · cases h
        · simp only [Option.some.injEq] at h
          rw [gsub.eq_def]
          simp only [hma]
          rw [ih _ _ _ _ hg, ← h]
      · have hmm := matF_sound _ _ _ _ hm
        have hma : matchAt pat (c :: rest) = some ((c :: rest).length - ms.rest.length, ms.caps) := by
          unfold matchAt
          rw [hmm]
        by_cases hk : 1 ≤ (c :: rest).length - ms.rest.length
        · rw [if_pos hk] at h
          rcases hg : gsubF f pat tpl (rest.drop ((c :: rest).length - ms.rest.length - 1)) with _ | r2 <;>
            simp only [hg] at h
          · cases h
          · simp only [Option.some.injEq] at h
            rw [gsub.eq_def]
            simp only [hma, if_pos hk]
            rw [ih _ _ _ _ hg, ← h]
        · rw [if_neg hk] at h
          rcases hg : gsubF f pat tpl rest with _ | r2 <;> simp only [hg] at h
          · cases h
          · simp only [Option.some.injEq] at h
            rw [gsub.eq_def]
            simp only [hma, if_neg hk]
            rw [ih _ _ _ _ hg, ← h]

end RX

namespace AllUnused

open RX

theorem foldl_none (ps : List (List Tok × List RI)) (f : Nat) :
    ps.foldl (fun c pr => match c with
      | none => none
      | some c2 => (gsubF f pr.1 pr.2 c2).map Prod.fst) none = none := by
  induction ps with
  | nil => rfl
  | cons p ps ih => exact ih

theorem foldl_gsubF_sound : ∀ (ps : List (List Tok × List RI)) (f : Nat)
    (c out : List Char),
    ps.foldl (fun acc pr => match acc with
      | none => none
      | some c2 => (gsubF f pr.1 pr.2 c2).map Prod.fst) (some c) = some out →
    ps.foldl (fun c2 (pr : List Tok × List RI) => (gsub pr.1 pr.2 c2).1) c = out := by
  intro ps
  induction ps with
  | nil =>
    intro f c out h
    simp only [List.foldl_nil, Option.some.injEq] at h
    simpa using h
  | cons p ps ih =>
    intro f c out h
    simp only [List.foldl_cons] at h ⊢
    rcases hg : gsubF f p.1 p.2 c with _ | r2
    · rw [hg] at h
      simp only [Option.map_none'] at h
      rw [foldl_none] at h
      cases h
    · rw [hg] at h
      simp only [Option.map_some'] at h
      rw [gsubF_sound _ _ _ _ _ hg]
      exact ih _ _ _ h

theorem fixVariableF_sound (f : Nat) (content : List Char) (v : String)
    (out : List Char) (h : fixVariableF f content v = some out) :
    fixVariable content v = out := by
  unfold fixVariableF at h
  unfold fixVariable
  by_cases hs : hasSub ('_' :: v.toList) content = true
  · rw [if_pos hs] at h ⊢
    exact (Option.some.injEq _ _).mp h
  · rw [if_neg hs] at h ⊢
    exact foldl_gsubF_sound _ _ _ _ h

/-- C7: on `const unused = 5;` with flagged identifier `unused` the
declaration-pattern rewriter yields `const _unused = 5;`, and rerunning it
on the result with the same flagged identifier leaves the content
unchanged, because `_unused` already occurs in it. -/
theorem claim_C7 :
    fixVariable "const unused = 5;".toList "unused" = "const _unused = 5;".toList ∧
    fixVariable "const _unused = 5;".toList "unused" = "const _unused = 5;".toList :=
  ⟨fixVariableF_sound 40 _ _ _ (by decide), fixVariableF_sound 40 _ _ _ (by decide)⟩

/-- C6 (amended): the declaration-pattern rewriter applies every pattern
of its list globally, so it underscores every matching occurrence of the
flagged identifier — on `const unused = 5; f(unused);` both the
declaration and the use site — and it skips identifiers whose underscored
form already occurs in the content.  This matches the script docstring,
which promises that all references are updated. -/
theorem claim_C6 :
    (fixVariable "const unused = 5; f(unused);".toList "unused" =
      "const _unused = 5; f(_unused);".toList) ∧
    (∀ (content : List Char) (v : String),
      hasSub ('_' :: v.toList) content = true → fixVariable content v = content) := by
  constructor
  · exact fixVariableF_sound 60 "const unused = 5; f(unused);".toList "unused"
      "const _unused = 5; f(_unused);".toList (by decide)
  · intro content v h
    unfold fixVariable
    rw [h]
    simp

/-- C6, counterexample to the claim as stated: rewriting flagged `unused`
in `const unused = 5; f(unused);` does not leave the use site alone — the
output is not the single-site rewrite `const _unused = 5; f(unused);`. -/
theorem claim_C6_counterexample :
    fixVariable "const unused = 5; f(unused);".toList "unused" ≠
      "const _unused = 5; f(unused);".toList := by
  have h := fixVariableF_sound 60 "const unused = 5; f(unused);".toList "unused"
    "const _unused = 5; f(_unused);".toList (by decide)
  rw [h]
  decide

end AllUnused

end SiteGen

namespace SiteGen
namespace JsonAgg

theorem processFile_empty (acc : ParseAcc) (fr : FileReport) (h : fr.messages = []) :
    processFile acc fr = acc := by
  simp [processFile, h]

theorem parse_all_empty (r : Report) (h : ∀ fr ∈ r, fr.messages = []) :
    parse_eslint_report r = ⟨[], [], 0⟩ := by
  unfold parse_eslint_report
  generalize hacc : (⟨[], [], 0⟩ : ParseAcc) = acc
  rw [← hacc]
  clear hacc
  induction r with
  | nil => rfl
  | cons fr rs ih =>
    rw [List.foldl_cons, processFile_empty _ _ (h fr (by simp))]
    exact ih (fun fr2 h2 => h fr2 (by simp [h2]))

/-- C9: on a JSON report all of whose files carry no messages, the
parse and the display themselves are safe — empty aggregation with total
0, zero issues shown, no directories, and no percentage division
performed at all (the divisions list is empty) — but the process does
NOT terminate normally: `main()` goes on to evaluate
`list(issues_by_dir.keys())[0]` on the empty aggregation, an uncaught
`IndexError`, so the claimed normal termination fails on exactly this
input class. -/
theorem claim_C9 (r : Report) (h : ∀ fr ∈ r, fr.messages = []) :
    parse_eslint_report r = ⟨[], [], 0⟩ ∧
    (display_analysis (parse_eslint_report r)).totalIssues = 0 ∧
    (display_analysis (parse_eslint_report r)).dirs = [] ∧
    (display_analysis (parse_eslint_report r)).divisions = [] ∧
    main_run r = .error "IndexError: list index out of range" := by
  have hp := parse_all_empty r h
  refine ⟨hp, ?_, ?_, ?_, ?_⟩
  · rw [hp]
    simp [display_analysis, sortDesc, List.mergeSort_nil]
  · rw [hp]
    simp [display_analysis, sortDesc, List.mergeSort_nil]
  · rw [hp]
    simp [display_analysis, sortDesc, List.mergeSort_nil]
  · unfold main_run
    rw [hp]
    rfl

theorem claim_C9_witness :
    parse_eslint_report [⟨"src/a.ts", []⟩] = ⟨[], [], 0⟩ ∧
    (display_analysis (parse_eslint_report [⟨"src/a.ts", []⟩])).totalIssues = 0 ∧
    (display_analysis (parse_eslint_report [⟨"src/a.ts", []⟩])).dirs = [] ∧
    (display_analysis (parse_eslint_report [⟨"src/a.ts", []⟩])).divisions = [] ∧
    main_run [⟨"src/a.ts", []⟩] = .error "IndexError: list index out of range" :=
  claim_C9 [⟨"src/a.ts", []⟩] (by decide)

end JsonAgg
end SiteGen

namespace SiteGen
namespace JsonAgg

theorem sortDesc_sorted {α : Type} (l : List (α × Nat)) :
    (sortDesc l).Pairwise (fun a b => b.2 ≤ a.2) := by
  have h := @List.sorted_mergeSort (α × Nat) (fun a b => decide (b.2 ≤ a.2))
    (fun a b c hab hbc => by
      simp only [decide_eq_true_eq] at *
      omega)
    (fun a b => by
      simp only [Bool.or_eq_true, decide_eq_true_eq]
      omega) l
  simp only [decide_eq_true_eq] at h
  exact h

theorem sortDesc_perm {α : Type} (l : List (α × Nat)) : (sortDesc l).Perm l :=
  List.mergeSort_perm l _

/-- C3: directories are displayed in non-increasing order of their totals;
files within a directory in non-increasing order of their totals; the rules
of a file in non-increasing order of their counts with at most five shown,
and the `...and K more rule types` count is `some k` exactly when the file
has `5 + k` rule types with `k > 0`. -/
theorem claim_C3 (r : Report) :
    ((display_analysis (parse_eslint_report r)).dirs.map DirBlock.total).Pairwise
      (fun a b => b ≤ a) ∧
    (∀ db ∈ (display_analysis (parse_eslint_report r)).dirs,
      (db.files.map FileBlock.total).Pairwise (fun a b => b ≤ a)) ∧
    (∀ db ∈ (display_analysis (parse_eslint_report r)).dirs,
      ∀ fb ∈ db.files,
        (fb.shownRules.map Prod.snd).Pairwise (fun a b => b ≤ a) ∧
        fb.shownRules.length ≤ 5 ∧
        (∀ k, fb.moreRuleTypes = some k ↔
          (getAssoc fb.filename
            (getAssoc db.dir (parse_eslint_report r).issuesByDir []) []).length = 5 + k ∧
          0 < k)) := by
  refine ⟨?_, ?_, ?_⟩
  · have h := sortDesc_sorted ((parse_eslint_report r).issuesByDir.map
      (fun dp => (dp.1, dirTotal dp.2)))
    simp only [display_analysis, List.map_map]
    exact h.map _ (fun a b hh => hh)
  · intro db hdb
    simp only [display_analysis, List.mem_map] at hdb
    obtain ⟨dp, hdp, rfl⟩ := hdb
    have h := sortDesc_sorted ((getAssoc dp.1 (parse_eslint_report r).issuesByDir []).map
      (fun fr => (fr.1, fileTotal fr.2)))
    simp only [dirBlockOf, List.map_map]
    exact h.map _ (fun a b hh => hh)
  · intro db hdb fb hfb
    simp only [display_analysis, List.mem_map] at hdb
    obtain ⟨dp, hdp, rfl⟩ := hdb
    simp only [dirBlockOf, List.mem_map] at hfb
    obtain ⟨fp, hfp, rfl⟩ := hfb
    refine ⟨?_, ?_, ?_⟩
    · have h := sortDesc_sorted (getAssoc fp.1
        (getAssoc dp.1 (parse_eslint_report r).issuesByDir []) [])
      have h2 := h.sublist (List.take_sublist 5 _)
      exact h2.map _ (fun a b hh => hh)
    · simp [fileBlockOf]
    · intro k
      have hlen : (sortDesc (getAssoc fp.1
          (getAssoc dp.1 (parse_eslint_report r).issuesByDir []) [])).length =
          (getAssoc fp.1
            (getAssoc dp.1 (parse_eslint_report r).issuesByDir []) []).length :=
        (sortDesc_perm _).length_eq
      simp only [fileBlockOf, dirBlockOf]
      rw [← hlen]
      by_cases h5 : (sortDesc (getAssoc fp.1
          (getAssoc dp.1 (parse_eslint_report r).issuesByDir []) [])).length > 5
      · rw [if_pos h5]
        constructor
        · intro hk
          have := (Option.some.injEq _ _).mp hk
          omega
        · intro ⟨h1, h2⟩
          congr 1
          omega
      · rw [if_neg h5]
        constructor
        · intro hk
          cases hk
        · intro ⟨h1, h2⟩
          omega

end JsonAgg
end SiteGen

namespace SiteGen

section AssocLemmas

variable {α : Type}


theorem setAssoc_comp (k : String) (g1 g2 : α → α) (df : α) (m : List (String × α)) :
    setAssoc k g1 df (setAssoc k g2 df m) = setAssoc k (fun v => g1 (g2 v)) df m := by
  induction m with
  | nil => simp [setAssoc]
  | cons kv rest ih =>
    by_cases hk : kv.1 = k
    · simp [setAssoc, hk]
    · simp [setAssoc, hk, ih]

theorem setAssoc_fresh (k : String) (g : α → α) (df : α) (m : List (String × α))
    (h : k ∉ keysOf m) : setAssoc k g df m = m ++ [(k, g df)] := by
  induction m with
  | nil => simp [setAssoc]
  | cons kv rest ih =>
    simp only [keysOf, List.map_cons, List.mem_cons] at h
    push_neg at h
    have hk : ¬ kv.1 = k := fun h2 => h.1 h2.symm
    simp [setAssoc, hk, ih (by simpa [keysOf] using h.2)]

theorem getAssoc_fresh (k : String) (m : List (String × α)) (df : α)
    (h : k ∉ keysOf m) : getAssoc k m df = df := by
  induction m with
  | nil => rfl
  | cons kv rest ih =>
    simp only [keysOf, List.map_cons, List.mem_cons] at h
    push_neg at h
    have hk : ¬ kv.1 = k := fun h2 => h.1 h2.symm
    simp only [getAssoc, List.find?]
    rw [show (decide (kv.1 = k)) = false from by simp [hk]]
    exact ih (by simpa [keysOf] using h.2)

theorem setAssoc_present (k : String) (g : α → α) (df : α) :
    ∀ (m : List (String × α)), k ∈ keysOf m →
      ∃ pre v post, m = pre ++ (k, v) :: post ∧ k ∉ keysOf pre ∧
        setAssoc k g df m = pre ++ (k, g v) :: post ∧
        getAssoc k m df = v := by
  intro m
  induction m with
  | nil => intro h; cases h
  | cons kv rest ih =>
    obtain ⟨k1, v1⟩ := kv
    intro h
    by_cases hk : k1 = k
    · subst hk
      refine ⟨[], v1, rest, by simp, by simp [keysOf], ?_, ?_⟩
      · simp [setAssoc]
      · simp [getAssoc, List.find?]
    · have h2 : k ∈ keysOf rest := by
        simp only [keysOf, List.map_cons, List.mem_cons] at h
        rcases h with h | h
        · exact absurd h.symm hk
        · simpa [keysOf] using h
      obtain ⟨pre, v, post, hm, hpre, hset, hget⟩ := ih h2
      refine ⟨(k1, v1) :: pre, v, post, by simp [hm], ?_, ?_, ?_⟩
      · simp only [keysOf, List.map_cons, List.mem_cons]
        push_neg
        exact ⟨fun h3 => hk h3.symm, by simpa [keysOf] using hpre⟩
      · simp [setAssoc, hk, hset]
      · simp only [getAssoc, List.find?]
        rw [show (decide (k1 = k)) = false from by simp [hk]]
        exact hget

theorem getAssoc_mem_nodup (m : List (String × α)) (k : String) (v : α) (df : α)
    (hnd : (keysOf m).Nodup) (hmem : (k, v) ∈ m) : getAssoc k m df = v := by
  induction m with
  | nil => cases hmem
  | cons kv rest ih =>
    obtain ⟨k1, v1⟩ := kv
    simp only [keysOf, List.map_cons, List.nodup_cons] at hnd
    rcases List.mem_cons.mp hmem with h | h
    · injection h with h1 h2
      subst h1
      subst h2
      simp [getAssoc, List.find?]
    · have hk : k1 ≠ k := by
        intro he
        subst he
        exact hnd.1 (by simpa [keysOf] using List.mem_map_of_mem Prod.fst h)
      simp only [getAssoc, List.find?]
      rw [show (decide (k1 = k)) = false from by simp [hk]]
      exact ih (by simpa [keysOf] using hnd.2) h

theorem keysOf_setAssoc_nodup (k : String) (g : α → α) (df : α)
    (m : List (String × α)) (hnd : (keysOf m).Nodup) :
    (keysOf (setAssoc k g df m)).Nodup := by
  by_cases h : k ∈ keysOf m
  · obtain ⟨pre, v, post, hm, hpre, hset, hget⟩ := setAssoc_present k g df m h
    rw [hset]
    rw [hm] at hnd
    simpa [keysOf] using hnd
  · rw [setAssoc_fresh k g df m h]
    simp only [keysOf, List.map_append, List.map_cons, List.map_nil]
    refine List.Nodup.append hnd (List.nodup_singleton k) ?_
    intro a ha hb
    simp only [List.mem_singleton] at hb
    subst hb
    exact h (by simpa [keysOf] using ha)

end AssocLemmas

end SiteGen

namespace SiteGen
namespace JsonAgg

theorem storeFileIssues_collapse (d f : String) :
    ∀ (fi : RuleCounts), fi ≠ [] → ∀ (m : DirMap),
      storeFileIssues d f fi m =
        setAssoc d (fun fm => setAssoc f (fun rm => ruleFold fi rm) [] fm) [] m := by
  intro fi
  induction fi with
  | nil => intro h; cases h rfl
  | cons rc fi2 ih =>
    intro _ m
    cases fi2 with
    | nil => simp [storeFileIssues, setRule, ruleFold]
    | cons rc2 fi3 =>
      have h1 : storeFileIssues d f (rc :: rc2 :: fi3) m =
          storeFileIssues d f (rc2 :: fi3) (setRule d f rc.1 rc.2 m) := by
        simp [storeFileIssues]
      rw [h1, ih (by simp) _]
      unfold setRule
      rw [setAssoc_comp]
      congr 1
      funext fm
      rw [setAssoc_comp]
      congr 1

theorem sumRC_bump (k : String) (n : Nat) (m : RuleCounts) :
    sumRC (bump k n m) = sumRC m + n := by
  induction m with
  | nil => simp [bump, sumRC]
  | cons kv rest ih =>
    by_cases hk : kv.1 = k
    · simp only [bump, if_pos hk, sumRC, List.map_cons, List.sum_cons]
      omega
    · simp only [bump, if_neg hk, sumRC, List.map_cons, List.sum_cons] at *
      omega

theorem sumRC_fileIssues (msgs : List Message) :
    sumRC (fileIssues msgs) = msgs.length := by
  unfold fileIssues
  have h : ∀ (ms : List Message) (acc : RuleCounts),
      sumRC (ms.foldl (fun acc m => bump (ruleOf m) 1 acc) acc) = sumRC acc + ms.length := by
    intro ms
    induction ms with
    | nil => simp
    | cons m0 ms2 ih =>
      intro acc
      rw [List.foldl_cons, ih, sumRC_bump]
      simp only [List.length_cons]
      omega
  rw [h]
  simp [sumRC]

theorem keysOf_bump (k : String) (n : Nat) (m : RuleCounts) :
    keysOf (bump k n m) = if k ∈ keysOf m then keysOf m else keysOf m ++ [k] := by
  induction m with
  | nil => simp [bump, keysOf]
  | cons kv rest ih =>
    by_cases hk : kv.1 = k
    · subst hk
      simp [bump, keysOf]
    · have hk2 : ¬ k = kv.1 := fun h => hk h.symm
      simp only [bump, if_neg hk, keysOf, List.map_cons, List.mem_cons, hk2, false_or]
      simp only [keysOf] at ih
      rw [ih]
      by_cases hm : k ∈ List.map Prod.fst rest
      · simp [hm]
      · simp [hm]

theorem nodup_bump (k : String) (n : Nat) (m : RuleCounts)
    (h : (keysOf m).Nodup) : (keysOf (bump k n m)).Nodup := by
  rw [keysOf_bump]
  by_cases hm : k ∈ keysOf m
  · simpa [hm] using h
  · simp only [hm, if_false]
    refine List.Nodup.append h (List.nodup_singleton k) ?_
    intro a ha hb
    simp only [List.mem_singleton] at hb
    subst hb
    exact hm ha

theorem nodup_fileIssues (msgs : List Message) : (keysOf (fileIssues msgs)).Nodup := by
  unfold fileIssues
  have h : ∀ (ms : List Message) (acc : RuleCounts), (keysOf acc).Nodup →
      (keysOf (ms.foldl (fun acc m => bump (ruleOf m) 1 acc) acc)).Nodup := by
    intro ms
    induction ms with
    | nil => intro acc h; exact h
    | cons m0 ms2 ih =>
      intro acc h
      rw [List.foldl_cons]
      exact ih _ (nodup_bump _ _ _ h)
  exact h msgs [] (by simp [keysOf])

theorem fileIssues_ne_nil (msgs : List Message) (h : msgs ≠ []) :
    fileIssues msgs ≠ [] := by
  have hb : ∀ (k : String) (n : Nat) (m : RuleCounts), bump k n m ≠ [] := by
    intro k n m
    cases m with
    | nil => simp [bump]
    | cons kv rest =>
      by_cases hk : kv.1 = k <;> simp [bump, hk]
  have hf : ∀ (ms : List Message) (acc : RuleCounts), acc ≠ [] →
      ms.foldl (fun acc m => bump (ruleOf m) 1 acc) acc ≠ [] := by
    intro ms
    induction ms with
    | nil => intro acc h2; exact h2
    | cons m0 ms2 ih => intro acc h2; exact ih _ (hb _ _ _)
  cases msgs with
  | nil => cases h rfl
  | cons m0 ms2 =>
    unfold fileIssues
    rw [List.foldl_cons]
    exact hf _ _ (hb _ _ _)

theorem fileTotal_ruleFold (fi : RuleCounts) :
    ∀ (rm : RuleCounts), (keysOf fi).Nodup →
      (∀ k ∈ keysOf fi, k ∉ keysOf rm) →
      fileTotal (ruleFold fi rm) = fileTotal rm + sumRC fi := by
  induction fi with
  | nil => intro rm _ _; simp [ruleFold, sumRC]
  | cons rc fi2 ih =>
    intro rm hnd hdisj
    simp only [keysOf, List.map_cons, List.nodup_cons] at hnd
    have h1 : ruleFold (rc :: fi2) rm = ruleFold fi2 (setAssoc rc.1 (fun _ => rc.2) 0 rm) := by
      simp [ruleFold]
    rw [h1]
    rw [setAssoc_fresh _ _ _ _ (hdisj rc.1 (by simp [keysOf]))]
    rw [ih _ (by simpa [keysOf] using hnd.2) ?hd]
    case hd =>
      intro k hk
      simp only [keysOf, List.map_append, List.map_cons, List.map_nil, List.mem_append,
        List.mem_singleton]
      push_neg
      constructor
      · exact hdisj k (by simp [keysOf]; exact Or.inr (by simpa [keysOf] using hk))
      · intro he
        subst he
        exact hnd.1 (by simpa [keysOf] using hk)
    have h2 : fileTotal (rm ++ [(rc.1, rc.2)]) = fileTotal rm + rc.2 := by
      simp [fileTotal, sumRC]
    rw [h2]
    simp [sumRC]
    omega

end JsonAgg
end SiteGen

namespace SiteGen
namespace JsonAgg

theorem pairsOf_append (a b : DirMap) : pairsOf (a ++ b) = pairsOf a ++ pairsOf b := by
  simp [pairsOf]

theorem pairs_mem (m : DirMap) (d f : String) (fm : FileMap)
    (h1 : (d, fm) ∈ m) (h2 : f ∈ keysOf fm) : (d, f) ∈ pairsOf m := by
  simp only [pairsOf, List.mem_flatMap]
  refine ⟨(d, fm), h1, ?_⟩
  simp only [keysOf, List.mem_map] at h2
  obtain ⟨fp, hfp, rfl⟩ := h2
  exact List.mem_map_of_mem _ hfp

theorem grand_store (d f : String) (msgs : List Message) (m : DirMap)
    (hmsgs : msgs ≠ []) (hfresh : (d, f) ∉ pairsOf m) :
    grandTotal (storeFileIssues d f (fileIssues msgs) m) = grandTotal m + msgs.length ∧
    ∀ x ∈ pairsOf (storeFileIssues d f (fileIssues msgs) m),
      x ∈ pairsOf m ∨ x = (d, f) := by
  have hX : fileTotal (ruleFold (fileIssues msgs) []) = msgs.length := by
    rw [fileTotal_ruleFold (fileIssues msgs) [] (nodup_fileIssues msgs)
      (by intro k _ hk; simp [keysOf] at hk)]
    have h0 : fileTotal ([] : RuleCounts) = 0 := rfl
    rw [h0, Nat.zero_add, sumRC_fileIssues]
  rw [storeFileIssues_collapse d f (fileIssues msgs) (fileIssues_ne_nil msgs hmsgs) m]
  by_cases hd : d ∈ keysOf m
  · obtain ⟨pre, fm, post, hm, hpre, hset, hget⟩ :=
      setAssoc_present d (fun fm => setAssoc f (fun rm => ruleFold (fileIssues msgs) rm) [] fm)
        [] m hd
    rw [hset]
    have hf : f ∉ keysOf fm := by
      intro hf2
      exact hfresh (pairs_mem m d f fm (by rw [hm]; simp) hf2)
    rw [setAssoc_fresh f _ [] fm hf]
    constructor
    · rw [hm]
      simp only [grandTotal, List.map_append, List.map_cons, List.sum_append, List.sum_cons]
      have : dirTotal (fm ++ [(f, ruleFold (fileIssues msgs) [])]) =
          dirTotal fm + msgs.length := by
        simp [dirTotal, List.map_append, hX]
      rw [this]
      omega
    · intro x hx
      have hmp : pairsOf m =
          pairsOf pre ++ fm.map (fun fp => (d, fp.1)) ++ pairsOf post := by
        rw [hm]
        simp [pairsOf]
      have hdec : pairsOf (pre ++
          ((d, fm ++ [(f, ruleFold (fileIssues msgs) [])]) :: post)) =
          pairsOf pre ++ (fm.map (fun fp => (d, fp.1)) ++ [(d, f)]) ++ pairsOf post := by
        simp [pairsOf]
      rw [hdec] at hx
      rw [hmp]
      rcases List.mem_append.mp hx with hx1 | hx1
      · rcases List.mem_append.mp hx1 with hx2 | hx2
        · exact Or.inl (List.mem_append.mpr (Or.inl (List.mem_append.mpr (Or.inl hx2))))
        · rcases List.mem_append.mp hx2 with hx3 | hx3
          · exact Or.inl (List.mem_append.mpr (Or.inl (List.mem_append.mpr (Or.inr hx3))))
          · exact Or.inr (by simpa using hx3)
      · exact Or.inl (List.mem_append.mpr (Or.inr hx1))
  · rw [setAssoc_fresh d _ [] m hd]
    constructor
    · simp only [grandTotal, List.map_append, List.map_cons, List.map_nil,
        List.sum_append, List.sum_cons, List.sum_nil]
      have : dirTotal (setAssoc f (fun rm => ruleFold (fileIssues msgs) rm) [] []) =
          msgs.length := by
        simp [setAssoc, dirTotal, hX]
      rw [this]
      omega
    · intro x hx
      have hdec : pairsOf (m ++
          [(d, setAssoc f (fun rm => ruleFold (fileIssues msgs) rm) [] [])]) =
          pairsOf m ++ [(d, f)] := by
        simp [pairsOf, setAssoc]
      rw [hdec] at hx
      rcases List.mem_append.mp hx with hx1 | hx1
      · exact Or.inl hx1
      · exact Or.inr (by simpa using hx1)

theorem wfKeys_cons (fr : FileReport) (rs : List FileReport) :
    wfKeys (fr :: rs) =
      if fr.messages.isEmpty then wfKeys rs
      else (dirOf fr, fileOf fr) :: wfKeys rs := by
  by_cases h : fr.messages.isEmpty <;> simp [wfKeys, List.filter, h]

theorem parse_grand_aux : ∀ (rs : List FileReport) (acc : ParseAcc),
    (∀ fr ∈ rs, fr.messages ≠ [] → (dirOf fr, fileOf fr) ∉ pairsOf acc.issuesByDir) →
    (wfKeys rs).Nodup →
    grandTotal (rs.foldl processFile acc).issuesByDir + acc.total =
      grandTotal acc.issuesByDir + (rs.foldl processFile acc).total := by
  intro rs
  induction rs with
  | nil => intro acc _ _; rfl
  | cons fr rs2 ih =>
    intro acc hfr hnd
    rw [List.foldl_cons]
    by_cases he : fr.messages = []
    · rw [processFile_empty acc fr he]
      refine ih acc (fun fr2 h2 => hfr fr2 (by simp [h2])) ?_
      rw [wfKeys_cons] at hnd
      simpa [he] using hnd
    · have hstep : processFile acc fr =
          { issuesByDir := storeFileIssues (dirOf fr) (fileOf fr)
              (fileIssues fr.messages) acc.issuesByDir
            ruleCounts := fr.messages.foldl (fun g m => bump (ruleOf m) 1 g) acc.ruleCounts
            total := acc.total + fr.messages.length } := by
        simp [processFile, he]
      obtain ⟨hg, hp⟩ := grand_store (dirOf fr) (fileOf fr) fr.messages acc.issuesByDir he
        (hfr fr (by simp) he)
      rw [wfKeys_cons] at hnd
      rw [if_neg (by simpa using he)] at hnd
      have hnd2 := List.nodup_cons.mp hnd
      have ih2 := ih (processFile acc fr) ?hfr2 hnd2.2
      case hfr2 =>
        intro fr2 h2 hne2
        rw [hstep]
        intro hmem
        rcases hp _ hmem with hmem2 | hmem2
        · exact hfr fr2 (by simp [h2]) hne2 hmem2
        · refine hnd2.1 ?_
          rw [← hmem2]
          simp only [wfKeys, List.mem_map, List.mem_filter]
          exact ⟨fr2, ⟨h2, by simpa using hne2⟩, rfl⟩
      rw [hstep] at ih2
      simp only [hg] at ih2
      rw [hstep]
      omega

end JsonAgg
end SiteGen

namespace SiteGen
namespace JsonAgg

theorem storeFileIssues_nodup (d f : String) :
    ∀ (fi : RuleCounts) (m : DirMap), (keysOf m).Nodup →
      (keysOf (storeFileIssues d f fi m)).Nodup := by
  intro fi
  induction fi with
  | nil => intro m h; exact h
  | cons rc fi2 ih =>
    intro m h
    have h1 : storeFileIssues d f (rc :: fi2) m =
        storeFileIssues d f fi2 (setRule d f rc.1 rc.2 m) := by
      simp [storeFileIssues]
    rw [h1]
    exact ih _ (keysOf_setAssoc_nodup _ _ _ _ h)

theorem parse_nodup : ∀ (rs : List FileReport) (acc : ParseAcc),
    (keysOf acc.issuesByDir).Nodup →
    (keysOf (rs.foldl processFile acc).issuesByDir).Nodup := by
  intro rs
  induction rs with
  | nil => intro acc h; exact h
  | cons fr rs2 ih =>
    intro acc h
    rw [List.foldl_cons]
    refine ih _ ?_
    by_cases he : fr.messages = []
    · rw [processFile_empty acc fr he]
      exact h
    · simp only [processFile, if_neg he]
      exact storeFileIssues_nodup _ _ _ _ h

/-- C1: for a well-formed report (one report entry per file), every
displayed directory total equals the sum of the displayed totals of its
files, and the displayed grand total equals the sum of the directory
totals. -/
theorem claim_C1 (r : Report) (hwf : WellFormed r) :
    (∀ db ∈ (display_analysis (parse_eslint_report r)).dirs,
      db.total = (db.files.map FileBlock.total).sum) ∧
    (display_analysis (parse_eslint_report r)).totalIssues =
      ((display_analysis (parse_eslint_report r)).dirs.map DirBlock.total).sum := by
  constructor
  · intro db hdb
    simp only [display_analysis, List.mem_map] at hdb
    obtain ⟨dp, hdp, rfl⟩ := hdb
    have hdp2 : dp ∈ (parse_eslint_report r).issuesByDir.map
        (fun dp => (dp.1, dirTotal dp.2)) := ((sortDesc_perm _).mem_iff).mp hdp
    simp only [List.mem_map] at hdp2
    obtain ⟨⟨d, fm⟩, hmem, rfl⟩ := hdp2
    have hnd : (keysOf (parse_eslint_report r).issuesByDir).Nodup :=
      parse_nodup r ⟨[], [], 0⟩ (by simp [keysOf])
    have hget : getAssoc d (parse_eslint_report r).issuesByDir [] = fm :=
      getAssoc_mem_nodup _ _ _ _ hnd hmem
    simp only [dirBlockOf, hget, List.map_map]
    have hsum : ((sortDesc (fm.map (fun fr => (fr.1, fileTotal fr.2)))).map
        (FileBlock.total ∘ fileBlockOf fm)).sum =
        ((sortDesc (fm.map (fun fr => (fr.1, fileTotal fr.2)))).map Prod.snd).sum := rfl
    rw [hsum]
    have hperm := (sortDesc_perm (fm.map (fun fr => (fr.1, fileTotal fr.2)))).map Prod.snd
    rw [hperm.sum_eq]
    simp [dirTotal, List.map_map, Function.comp_def]
  · simp only [display_analysis, List.map_map]
    have hcomp : ((sortDesc ((parse_eslint_report r).issuesByDir.map
        (fun dp => (dp.1, dirTotal dp.2)))).map
        (DirBlock.total ∘ dirBlockOf (parse_eslint_report r).issuesByDir)).sum =
        ((sortDesc ((parse_eslint_report r).issuesByDir.map
          (fun dp => (dp.1, dirTotal dp.2)))).map Prod.snd).sum := rfl
    rw [hcomp]
    have hperm := (sortDesc_perm ((parse_eslint_report r).issuesByDir.map
      (fun dp => (dp.1, dirTotal dp.2)))).map Prod.snd
    rw [hperm.sum_eq]
    have hg := parse_grand_aux r ⟨[], [], 0⟩
      (by intro fr _ _ hmem; simp [pairsOf] at hmem) hwf
    have hb : grandTotal (⟨[], [], 0⟩ : ParseAcc).issuesByDir = 0 := rfl
    rw [hb] at hg
    simp only [Nat.add_zero, Nat.zero_add] at hg
    have hx : (List.map Prod.snd ((parse_eslint_report r).issuesByDir.map
        (fun dp => (dp.1, dirTotal dp.2)))).sum =
        grandTotal (parse_eslint_report r).issuesByDir := by
      simp [grandTotal, List.map_map, Function.comp_def]
    rw [hx]
    exact hg.symm

theorem claim_C1_witness :
    (∀ db ∈ (display_analysis (parse_eslint_report
        [⟨"src/a.ts", [⟨some "r1"⟩, ⟨none⟩]⟩, ⟨"src/sub/b.ts", [⟨some "r1"⟩]⟩])).dirs,
      db.total = (db.files.map FileBlock.total).sum) ∧
    (display_analysis (parse_eslint_report
        [⟨"src/a.ts", [⟨some "r1"⟩, ⟨none⟩]⟩, ⟨"src/sub/b.ts", [⟨some "r1"⟩]⟩])).totalIssues =
      ((display_analysis (parse_eslint_report
        [⟨"src/a.ts", [⟨some "r1"⟩, ⟨none⟩]⟩, ⟨"src/sub/b.ts", [⟨some "r1"⟩]⟩])).dirs.map
        DirBlock.total).sum :=
  claim_C1 _ (by unfold WellFormed; decide)

end JsonAgg
end SiteGen

namespace SiteGen
namespace TextAgg

theorem expects_sound : ∀ (p l r : List Char), expects p l = some r → l = p ++ r := by
  intro p
  induction p with
  | nil => intro l r h; simp [expects] at h; simp [h]
  | cons c ps ih =>
    intro l r h
    cases l with
    | nil => simp [expects] at h
    | cons c2 cs =>
      simp only [expects] at h
      by_cases hc : c2 = c
      · rw [if_pos hc] at h
        rw [hc, ih cs r h]
        simp
      · rw [if_neg hc] at h
        cases h

theorem expects_complete : ∀ (p r : List Char), expects p (p ++ r) = some r := by
  intro p
  induction p with
  | nil => intro r; simp [expects]
  | cons c ps ih => intro r; simp [expects, ih]

theorem ws1_sound (l r : List Char) (h : ws1 l = some r) :
    ∃ w, l = w ++ r ∧ w ≠ [] ∧ w.all isWS = true := by
  cases l with
  | nil => simp [ws1] at h
  | cons c cs =>
    simp only [ws1] at h
    by_cases hc : isWS c = true
    · rw [if_pos hc] at h
      injection h with h
      refine ⟨c :: cs.takeWhile isWS, ?_, by simp, ?_⟩
      · rw [← h]
        simp [List.takeWhile_append_dropWhile]
      · simp only [List.all_cons, hc, Bool.true_and, List.all_eq_true]
        intro x hx
        exact List.mem_takeWhile_imp hx
    · rw [if_neg hc] at h
      cases h

theorem digits1_sound (l r : List Char) (h : digits1 l = some r) :
    ∃ d, l = d ++ r ∧ d ≠ [] ∧ d.all isDigit = true := by
  cases l with
  | nil => simp [digits1] at h
  | cons c cs =>
    simp only [digits1] at h
    by_cases hc : isDigit c = true
    · rw [if_pos hc] at h
      injection h with h
      refine ⟨c :: cs.takeWhile isDigit, ?_, by simp, ?_⟩
      · rw [← h]
        simp [List.takeWhile_append_dropWhile]
      · simp only [List.all_cons, hc, Bool.true_and, List.all_eq_true]
        intro x hx
        exact List.mem_takeWhile_imp hx
    · rw [if_neg hc] at h
      cases h

theorem sevAlt_sound (l r : List Char) (h : sevAlt l = some r) :
    l = "Error".toList ++ r ∨ l = "Warning".toList ++ r := by
  unfold sevAlt at h
  cases he : expects "Error".toList l with
  | some r2 =>
    rw [he] at h
    injection h with h
    subst h
    exact Or.inl (expects_sound _ _ _ he)
  | none =>
    rw [he] at h
    exact Or.inr (expects_sound _ _ _ h)

theorem dropWhile_all_append (p : Char → Bool) (w : List Char) (c : Char) (r : List Char)
    (hw : w.all p = true) (hc : p c = false) :
    (w ++ c :: r).dropWhile p = c :: r := by
  induction w with
  | nil => simp [List.dropWhile, hc]
  | cons w0 w2 ih =>
    simp only [List.all_cons, Bool.and_eq_true] at hw
    simp [List.dropWhile, hw.1, ih hw.2]

theorem ws1_exact (w : List Char) (c : Char) (r : List Char)
    (hne : w ≠ []) (hall : w.all isWS = true) (hc : isWS c = false) :
    ws1 (w ++ c :: r) = some (c :: r) := by
  cases w with
  | nil => cases hne rfl
  | cons w0 w2 =>
    simp only [List.all_cons, Bool.and_eq_true] at hall
    simp [ws1, hall.1, dropWhile_all_append isWS w2 c r hall.2 hc]

theorem digits1_exact (d : List Char) (c : Char) (r : List Char)
    (hne : d ≠ []) (hall : d.all isDigit = true) (hc : isDigit c = false) :
    digits1 (d ++ c :: r) = some (c :: r) := by
  cases d with
  | nil => cases hne rfl
  | cons d0 d2 =>
    simp only [List.all_cons, Bool.and_eq_true] at hall
    simp [digits1, hall.1, dropWhile_all_append isDigit d2 c r hall.2 hc]

theorem isWS_of_isDigit (c : Char) (h : isDigit c = true) : isWS c = false := by
  simp only [isDigit, Bool.and_eq_true, decide_eq_true_eq] at h
  simp only [isWS, Bool.or_eq_false_iff, decide_eq_false_iff_not]
  refine ⟨⟨⟨⟨⟨?_, ?_⟩, ?_⟩, ?_⟩, ?_⟩, ?_⟩ <;>
    (intro he; subst he; revert h; decide)

end TextAgg
end SiteGen

namespace SiteGen
namespace TextAgg

theorem tailShape_sound (l : List Char) (h : tailShape l = true) :
    ∃ w1 w2 d1 w3 w4 d2 w5 sev w6 msg,
      l = w1 ++ "line".toList ++ w2 ++ d1 ++ [','] ++ w3 ++
        "col".toList ++ w4 ++ d2 ++ [','] ++ w5 ++ sev ++ w6 ++ ['-'] ++ msg ∧
      (w1 ≠ [] ∧ w1.all isWS = true) ∧ (w2 ≠ [] ∧ w2.all isWS = true) ∧
      (w3 ≠ [] ∧ w3.all isWS = true) ∧ (w4 ≠ [] ∧ w4.all isWS = true) ∧
      (w5 ≠ [] ∧ w5.all isWS = true) ∧ (w6 ≠ [] ∧ w6.all isWS = true) ∧
      (d1 ≠ [] ∧ d1.all isDigit = true) ∧ (d2 ≠ [] ∧ d2.all isDigit = true) ∧
      (sev = "Error".toList ∨ sev = "Warning".toList) := by
  unfold tailShape at h
  cases h1 : ws1 l with
  | none => rw [h1] at h; simp at h
  | some r1 =>
  rw [h1] at h
  simp only [Option.bind_eq_bind, Option.some_bind] at h
  cases h2 : expects "line".toList r1 with
  | none => rw [h2] at h; simp at h
  | some r2 =>
  rw [h2] at h
  simp only [Option.bind_eq_bind, Option.some_bind] at h
  cases h3 : ws1 r2 with
  | none => rw [h3] at h; simp at h
  | some r3 =>
  rw [h3] at h
  simp only [Option.bind_eq_bind, Option.some_bind] at h
  cases h4 : digits1 r3 with
  | none => rw [h4] at h; simp at h
  | some r4 =>
  rw [h4] at h
  simp only [Option.bind_eq_bind, Option.some_bind] at h
  cases h5 : expects [','] r4 with
  | none => rw [h5] at h; simp at h
  | some r5 =>
  rw [h5] at h
  simp only [Option.bind_eq_bind, Option.some_bind] at h
  cases h6 : ws1 r5 with
  | none => rw [h6] at h; simp at h
  | some r6 =>
  rw [h6] at h
  simp only [Option.bind_eq_bind, Option.some_bind] at h
  cases h7 : expects "col".toList r6 with
  | none => rw [h7] at h; simp at h
  | some r7 =>
  rw [h7] at h
  simp only [Option.bind_eq_bind, Option.some_bind] at h
  cases h8 : ws1 r7 with
  | none => rw [h8] at h; simp at h
  | some r8 =>
  rw [h8] at h
  simp only [Option.bind_eq_bind, Option.some_bind] at h
  cases h9 : digits1 r8 with
  | none => rw [h9] at h; simp at h
  | some r9 =>
  rw [h9] at h
  simp only [Option.bind_eq_bind, Option.some_bind] at h
  cases h10 : expects [','] r9 with
  | none => rw [h10] at h; simp at h
  | some r10 =>
  rw [h10] at h
  simp only [Option.bind_eq_bind, Option.some_bind] at h
  cases h11 : ws1 r10 with
  | none => rw [h11] at h; simp at h
  | some r11 =>
  rw [h11] at h
  simp only [Option.bind_eq_bind, Option.some_bind] at h
  cases h12 : sevAlt r11 with
  | none => rw [h12] at h; simp at h
  | some r12 =>
  rw [h12] at h
  simp only [Option.bind_eq_bind, Option.some_bind] at h
  cases h13 : ws1 r12 with
  | none => rw [h13] at h; simp at h
  | some r13 =>
  rw [h13] at h
  simp only [Option.bind_eq_bind, Option.some_bind] at h
  cases h14 : expects ['-'] r13 with
  | none => rw [h14] at h; simp at h
  | some r14 =>
  obtain ⟨ww1, he1, hn1, ha1⟩ := ws1_sound _ _ h1
  have he2 := expects_sound _ _ _ h2
  obtain ⟨ww2, he3, hn3, ha3⟩ := ws1_sound _ _ h3
  obtain ⟨dd1, he4, hn4, ha4⟩ := digits1_sound _ _ h4
  have he5 := expects_sound _ _ _ h5
  obtain ⟨ww3, he6, hn6, ha6⟩ := ws1_sound _ _ h6
  have he7 := expects_sound _ _ _ h7
  obtain ⟨ww4, he8, hn8, ha8⟩ := ws1_sound _ _ h8
  obtain ⟨dd2, he9, hn9, ha9⟩ := digits1_sound _ _ h9
  have he10 := expects_sound _ _ _ h10
  obtain ⟨ww5, he11, hn11, ha11⟩ := ws1_sound _ _ h11
  have he12 := sevAlt_sound _ _ h12
  obtain ⟨ww6, he13, hn13, ha13⟩ := ws1_sound _ _ h13
  have he14 := expects_sound _ _ _ h14
  rcases he12 with he12 | he12
  · refine ⟨ww1, ww2, dd1, ww3, ww4, dd2, ww5, "Error".toList, ww6, r14,
      ?_, ⟨hn1, ha1⟩, ⟨hn3, ha3⟩, ⟨hn6, ha6⟩, ⟨hn8, ha8⟩, ⟨hn11, ha11⟩,
      ⟨hn13, ha13⟩, ⟨hn4, ha4⟩, ⟨hn9, ha9⟩, Or.inl rfl⟩
    rw [he1, he2, he3, he4, he5, he6, he7, he8, he9, he10, he11, he12, he13, he14]
    simp [List.append_assoc]
  · refine ⟨ww1, ww2, dd1, ww3, ww4, dd2, ww5, "Warning".toList, ww6, r14,
      ?_, ⟨hn1, ha1⟩, ⟨hn3, ha3⟩, ⟨hn6, ha6⟩, ⟨hn8, ha8⟩, ⟨hn11, ha11⟩,
      ⟨hn13, ha13⟩, ⟨hn4, ha4⟩, ⟨hn9, ha9⟩, Or.inr rfl⟩
    rw [he1, he2, he3, he4, he5, he6, he7, he8, he9, he10, he11, he12, he13, he14]
    simp [List.append_assoc]

end TextAgg
end SiteGen

namespace SiteGen
namespace TextAgg

theorem tailShape_complete (w1 w2 d1 w3 w4 d2 w5 sev w6 msg : List Char)
    (h1 : w1 ≠ [] ∧ w1.all isWS = true) (h2 : w2 ≠ [] ∧ w2.all isWS = true)
    (h3 : w3 ≠ [] ∧ w3.all isWS = true) (h4 : w4 ≠ [] ∧ w4.all isWS = true)
    (h5 : w5 ≠ [] ∧ w5.all isWS = true) (h6 : w6 ≠ [] ∧ w6.all isWS = true)
    (hd1 : d1 ≠ [] ∧ d1.all isDigit = true) (hd2 : d2 ≠ [] ∧ d2.all isDigit = true)
    (hsev : sev = "Error".toList ∨ sev = "Warning".toList) :
    tailShape (w1 ++ "line".toList ++ w2 ++ d1 ++ [','] ++ w3 ++
      "col".toList ++ w4 ++ d2 ++ [','] ++ w5 ++ sev ++ w6 ++ ['-'] ++ msg) = true := by
  obtain ⟨dc1, dr1, rfl⟩ : ∃ c r, d1 = c :: r := by
    cases d1 with
    | nil => cases hd1.1 rfl
    | cons c r => exact ⟨c, r, rfl⟩
  obtain ⟨dc2, dr2, rfl⟩ : ∃ c r, d2 = c :: r := by
    cases d2 with
    | nil => cases hd2.1 rfl
    | cons c r => exact ⟨c, r, rfl⟩
  have hdc1 : isDigit dc1 = true := by
    have := hd1.2
    simp only [List.all_cons, Bool.and_eq_true] at this
    exact this.1
  have hdc2 : isDigit dc2 = true := by
    have := hd2.2
    simp only [List.all_cons, Bool.and_eq_true] at this
    exact this.1
  unfold tailShape
  rw [show (w1 ++ "line".toList ++ w2 ++ (dc1 :: dr1) ++ [','] ++ w3 ++
      "col".toList ++ w4 ++ (dc2 :: dr2) ++ [','] ++ w5 ++ sev ++ w6 ++ ['-'] ++ msg) =
      w1 ++ 'l' :: ("ine".toList ++ w2 ++ (dc1 :: dr1) ++ [','] ++ w3 ++
      "col".toList ++ w4 ++ (dc2 :: dr2) ++ [','] ++ w5 ++ sev ++ w6 ++ ['-'] ++ msg)
    from by simp [List.append_assoc]]
  rw [ws1_exact w1 'l' _ h1.1 h1.2 (by decide)]
  simp only [Option.bind_eq_bind, Option.some_bind]
  rw [show ('l' :: ("ine".toList ++ w2 ++ (dc1 :: dr1) ++ [','] ++ w3 ++
      "col".toList ++ w4 ++ (dc2 :: dr2) ++ [','] ++ w5 ++ sev ++ w6 ++ ['-'] ++ msg)) =
      "line".toList ++ (w2 ++ (dc1 :: dr1) ++ [','] ++ w3 ++
      "col".toList ++ w4 ++ (dc2 :: dr2) ++ [','] ++ w5 ++ sev ++ w6 ++ ['-'] ++ msg)
    from by simp [List.append_assoc]]
  rw [expects_complete]
  simp only [Option.bind_eq_bind, Option.some_bind]
  rw [show (w2 ++ (dc1 :: dr1) ++ [','] ++ w3 ++ "col".toList ++ w4 ++ (dc2 :: dr2) ++
      [','] ++ w5 ++ sev ++ w6 ++ ['-'] ++ msg) =
      w2 ++ dc1 :: (dr1 ++ [','] ++ w3 ++ "col".toList ++ w4 ++ (dc2 :: dr2) ++
      [','] ++ w5 ++ sev ++ w6 ++ ['-'] ++ msg)
    from by simp [List.append_assoc]]
  rw [ws1_exact w2 dc1 _ h2.1 h2.2 (isWS_of_isDigit dc1 hdc1)]
  simp only [Option.bind_eq_bind, Option.some_bind]
  rw [show (dc1 :: (dr1 ++ [','] ++ w3 ++ "col".toList ++ w4 ++ (dc2 :: dr2) ++
      [','] ++ w5 ++ sev ++ w6 ++ ['-'] ++ msg)) =
      (dc1 :: dr1) ++ ',' :: (w3 ++ "col".toList ++ w4 ++ (dc2 :: dr2) ++
      [','] ++ w5 ++ sev ++ w6 ++ ['-'] ++ msg)
    from by simp [List.append_assoc]]
  rw [digits1_exact (dc1 :: dr1) ',' _ (by simp) hd1.2 (by decide)]
  simp only [Option.bind_eq_bind, Option.some_bind]
  rw [show (',' :: (w3 ++ "col".toList ++ w4 ++ (dc2 :: dr2) ++
      [','] ++ w5 ++ sev ++ w6 ++ ['-'] ++ msg)) =
      [','] ++ (w3 ++ "col".toList ++ w4 ++ (dc2 :: dr2) ++
      [','] ++ w5 ++ sev ++ w6 ++ ['-'] ++ msg) from rfl]
  rw [expects_complete]
  simp only [Option.bind_eq_bind, Option.some_bind]
  rw [show (w3 ++ "col".toList ++ w4 ++ (dc2 :: dr2) ++
      [','] ++ w5 ++ sev ++ w6 ++ ['-'] ++ msg) =
      w3 ++ 'c' :: ("ol".toList ++ w4 ++ (dc2 :: dr2) ++
      [','] ++ w5 ++ sev ++ w6 ++ ['-'] ++ msg)
    from by simp [List.append_assoc]]
  rw [ws1_exact w3 'c' _ h3.1 h3.2 (by decide)]
  simp only [Option.bind_eq_bind, Option.some_bind]
  rw [show ('c' :: ("ol".toList ++ w4 ++ (dc2 :: dr2) ++
      [','] ++ w5 ++ sev ++ w6 ++ ['-'] ++ msg)) =
      "col".toList ++ (w4 ++ (dc2 :: dr2) ++
      [','] ++ w5 ++ sev ++ w6 ++ ['-'] ++ msg)
    from by simp [List.append_assoc]]
  rw [expects_complete]
  simp only [Option.bind_eq_bind, Option.some_bind]
  rw [show (w4 ++ (dc2 :: dr2) ++ [','] ++ w5 ++ sev ++ w6 ++ ['-'] ++ msg) =
      w4 ++ dc2 :: (dr2 ++ [','] ++ w5 ++ sev ++ w6 ++ ['-'] ++ msg)
    from by simp [List.append_assoc]]
  rw [ws1_exact w4 dc2 _ h4.1 h4.2 (isWS_of_isDigit dc2 hdc2)]
  simp only [Option.bind_eq_bind, Option.some_bind]
  rw [show (dc2 :: (dr2 ++ [','] ++ w5 ++ sev ++ w6 ++ ['-'] ++ msg)) =
      (dc2 :: dr2) ++ ',' :: (w5 ++ sev ++ w6 ++ ['-'] ++ msg)
    from by simp [List.append_assoc]]
  rw [digits1_exact (dc2 :: dr2) ',' _ (by simp) hd2.2 (by decide)]
  simp only [Option.bind_eq_bind, Option.some_bind]
  rw [show (',' :: (w5 ++ sev ++ w6 ++ ['-'] ++ msg)) =
      [','] ++ (w5 ++ sev ++ w6 ++ ['-'] ++ msg) from rfl]
  rw [expects_complete]
  simp only [Option.bind_eq_bind, Option.some_bind]
  obtain ⟨sc, sr, hs, hscw⟩ : ∃ c r, sev = c :: r ∧ isWS c = false := by
    rcases hsev with hs | hs <;> subst hs
    · exact ⟨'E', "rror".toList, rfl, by decide⟩
    · exact ⟨'W', "arning".toList, rfl, by decide⟩
  rw [show (w5 ++ sev ++ w6 ++ ['-'] ++ msg) =
      w5 ++ sc :: (sr ++ w6 ++ ['-'] ++ msg)
    from by rw [hs]; simp [List.append_assoc]]
  rw [ws1_exact w5 sc _ h5.1 h5.2 hscw]
  simp only [Option.bind_eq_bind, Option.some_bind]
  have hsev2 : sevAlt (sc :: (sr ++ w6 ++ ['-'] ++ msg)) =
      some (w6 ++ ['-'] ++ msg) := by
    rcases hsev with hs2 | hs2
    · have he : sc :: sr = "Error".toList := by rw [← hs, hs2]
      rw [show (sc :: (sr ++ w6 ++ ['-'] ++ msg)) =
          (sc :: sr) ++ (w6 ++ ['-'] ++ msg) from by simp [List.append_assoc]]
      rw [he]
      unfold sevAlt
      rw [expects_complete]
    · have he : sc :: sr = "Warning".toList := by rw [← hs, hs2]
      rw [show (sc :: (sr ++ w6 ++ ['-'] ++ msg)) =
          (sc :: sr) ++ (w6 ++ ['-'] ++ msg) from by simp [List.append_assoc]]
      rw [he]
      unfold sevAlt
      rw [show expects "Error".toList ("Warning".toList ++ (w6 ++ ['-'] ++ msg)) = none
        from by simp [expects]]
      rw [expects_complete]
  rw [hsev2]
  simp only [Option.bind_eq_bind, Option.some_bind]
  rw [show (w6 ++ ['-'] ++ msg) = w6 ++ '-' :: msg from by simp [List.append_assoc]]
  rw [ws1_exact w6 '-' _ h6.1 h6.2 (by decide)]
  simp only [Option.bind_eq_bind, Option.some_bind]
  rw [show ('-' :: msg) = ['-'] ++ msg from rfl]
  rw [expects_complete]
  rfl

end TextAgg
end SiteGen

namespace SiteGen
namespace TextAgg

theorem findSplit_sound : ∀ (l acc : List Char) (pr : List Char × List Char),
    findSplit acc l = some pr →
      acc.reverse ++ l = pr.1 ++ ':' :: pr.2 ∧ pr.1 ≠ [] ∧ tailShape pr.2 = true := by
  intro l
  induction l with
  | nil => intro acc pr h; simp [findSplit] at h
  | cons c cs ih =>
    intro acc pr h
    simp only [findSplit] at h
    by_cases hc : c = ':' ∧ acc ≠ [] ∧ tailShape cs = true
    · rw [if_pos hc] at h
      injection h with h
      subst h
      refine ⟨?_, ?_, hc.2.2⟩
      · rw [hc.1]
      · simp only [ne_eq, List.reverse_eq_nil_iff]
        exact hc.2.1
    · rw [if_neg hc] at h
      have h2 := ih (c :: acc) pr h
      refine ⟨?_, h2.2.1, h2.2.2⟩
      rw [← h2.1]
      simp

theorem findSplit_complete : ∀ (l acc : List Char),
    (∃ a b, l = a ++ ':' :: b ∧ (a ≠ [] ∨ acc ≠ []) ∧ tailShape b = true) →
    (findSplit acc l).isSome = true := by
  intro l
  induction l with
  | nil =>
    intro acc ⟨a, b, hab, _, _⟩
    cases a <;> simp at hab
  | cons c cs ih =>
    intro acc ⟨a, b, hab, hne, hts⟩
    simp only [findSplit]
    by_cases hc : c = ':' ∧ acc ≠ [] ∧ tailShape cs = true
    · rw [if_pos hc]
      rfl
    · rw [if_neg hc]
      cases a with
      | nil =>
        simp only [List.nil_append] at hab
        injection hab with hab1 hab2
        rcases hne with hne | hne
        · cases hne rfl
        · exact absurd ⟨hab1, hne, hab2 ▸ hts⟩ hc
      | cons a0 a2 =>
        simp only [List.cons_append] at hab
        injection hab with hab1 hab2
        exact ih (c :: acc) ⟨a2, b, hab2, Or.inr (by simp), hts⟩

/-- C8: a line is counted by the text aggregator exactly when it has the
shape `<path>: line <n>, col <n>, (Error|Warning) - <message>`; a
non-matching line leaves the aggregation unchanged (no error), and a
matching line is keyed by `os.path.dirname` of the captured path, the
path with its final segment stripped. -/
theorem claim_C8 :
    (∀ l, (matchLine l).isSome = true ↔ ShapeOf l) ∧
    (∀ (m : TDirMap) (line : String), matchLine (strip line.toList) = none →
      processLine m line = m) ∧
    (∀ (m : TDirMap) (line : String) (path : List Char),
      matchLine (strip line.toList) = some path →
      processLine m line =
        bumpNested (String.mk (PathOps.dirname path)) (String.mk path) m) := by
  refine ⟨?_, ?_, ?_⟩
  · intro l
    constructor
    · intro h
      rw [Option.isSome_iff_exists] at h
      obtain ⟨path, hp⟩ := h
      unfold matchLine at hp
      cases hf : findSplit [] l with
      | none => rw [hf] at hp; cases hp
      | some pr =>
        have hs := findSplit_sound l [] pr hf
        simp only [List.reverse_nil, List.nil_append] at hs
        obtain ⟨w1, w2, d1, w3, w4, d2, w5, sev, w6, msg, heq, hw1, hw2, hw3, hw4,
          hw5, hw6, hd1, hd2, hsev⟩ := tailShape_sound pr.2 hs.2.2
        refine ⟨pr.1, w1, w2, d1, w3, w4, d2, w5, sev, w6, msg, ?_, hs.2.1,
          hw1, hw2, hw3, hw4, hw5, hw6, hd1, hd2, hsev⟩
        rw [hs.1, heq]
        simp [List.append_assoc]
    · intro ⟨path, w1, w2, d1, w3, w4, d2, w5, sev, w6, msg, heq, hpath,
        hw1, hw2, hw3, hw4, hw5, hw6, hd1, hd2, hsev⟩
      unfold matchLine
      rw [show ((findSplit [] l).map (fun pr => pr.1)).isSome = (findSplit [] l).isSome
        from by cases findSplit [] l <;> rfl]
      refine findSplit_complete l [] ⟨path,
        w1 ++ "line".toList ++ w2 ++ d1 ++ [','] ++ w3 ++ "col".toList ++ w4 ++
          d2 ++ [','] ++ w5 ++ sev ++ w6 ++ ['-'] ++ msg, ?_, Or.inl hpath, ?_⟩
      · rw [heq]
        simp [List.append_assoc]
      · exact tailShape_complete w1 w2 d1 w3 w4 d2 w5 sev w6 msg
          hw1 hw2 hw3 hw4 hw5 hw6 hd1 hd2 hsev
  · intro m line h
    unfold processLine
    rw [h]
  · intro m line path h
    unfold processLine
    rw [h]

end TextAgg
end SiteGen

namespace SiteGen

/-- C2: a missing report file makes the text aggregator print an error
message and return the empty aggregation, with process exit status 0
(the script calls no `sys.exit`), whereas the JSON aggregator exits with
status 1 (non-zero) on malformed JSON. -/
theorem claim_C2 :
    (TextAgg.mainRun .missing =
      ([.analyzingHeader, .errMissingReport "eslint_report.txt", .noIssues, .complete],
        [], 0)) ∧
    JsonAgg.parse_eslint_report_run .badJson = .error 1 ∧ (1 : Nat) ≠ 0 :=
  ⟨rfl, rfl, by decide⟩

/-- C4: the `any`-type rewriter is idempotent on every file content: a
second application to the output of a first performs zero replacements
(the modified flag of the second run is `false`) and returns the content
unchanged. -/
theorem claim_C4 (l : List Char) :
    FixAny.fix_any_types (FixAny.fix_any_types l).1 = ((FixAny.fix_any_types l).1, false) :=
  FixAny.fix_any_types_idem l

/-- C5: the location-pattern rewriter inserts exactly one underscore at a
flagged standalone occurrence (first conjunct), but the adjacent-character
test is mis-bracketed in the source: at column 1 the `or`-branch consults
`line[-1]`, the LAST character of the line, so an occurrence that is
standalone in the specification's sense is left unmodified whenever the
line happens to end in an underscore (remaining conjuncts). -/
theorem claim_C5 :
    (LocFix.fix_unused_vars ["const abc = 5;".toList] [⟨"abc", 1, 7⟩] =
      (["const _abc = 5;".toList], 1)) ∧
    (LocFix.fix_unused_vars ["abc = x_".toList] [⟨"abc", 1, 1⟩] =
      (["abc = x_".toList], 0)) ∧
    ((("abc = x_".toList).drop 0).take 3 = "abc".toList) ∧
    LocFix.standaloneSpec "abc = x_".toList 0 3 := by decide

end SiteGen
